import Mathlib

/-!
Shallow embedding of the cognitive memory system of
`src/email-priority-agent/src/memory/cognitive_memory.py`.

Modelling conventions:
* Python floats are modelled as exact rationals (`ℚ`); literals such as
  `0.7` become `7/10`.
* `datetime` timestamps are modelled as integer epoch seconds (`ℤ`);
  `timedelta.seconds` (the seconds *component*, not `total_seconds()`)
  is `(Δ % 86400)` for the non-negative deltas that occur at runtime.
* `np.linalg.norm` (a float square root) is modelled by `ratSqrt`, a
  rational square root that is exact whenever its argument is the square
  of a rational; every concrete vector used in witnesses below has a
  rational norm, where this model coincides with exact real arithmetic.
* `list.sort(key=..., reverse=True)` (Python's stable sort, descending)
  is modelled by the stable insertion sort `sortDescBy`.
* The external collaborators (embedding service, database session) are
  modelled as explicit parameters: the embedding produced for a stored
  interaction and the result of the long-term-memory query are inputs,
  and the rows written through the session are recorded in the state.
* Python dictionaries (`short_term_memory`, `activation_scores`,
  `memory_graph`, sender profiles) are association lists preserving
  insertion order, exactly as CPython dictionaries do.
-/

/-- Integer square root computed by bounded search; kernel-reducible.
Used only through `ratSqrt`. -/
def natSqrt (n : ℕ) : ℕ :=
  ((List.range (n + 1)).filter (fun k => k * k ≤ n)).foldl (fun a b => max a b) 0

/-- Rational model of the float square root used by `np.linalg.norm`:
exact on squares of non-negative rationals (a reduced `(a/b)^2` has
numerator `a^2` and denominator `b^2`). -/
def ratSqrt (q : ℚ) : ℚ :=
  (natSqrt q.num.toNat : ℚ) / (natSqrt q.den : ℚ)

/-- `np.dot` on two vectors of equal length (all embeddings produced by
one embedding model have the same dimension). -/
def dotQ (u v : List ℚ) : ℚ :=
  (List.zipWith (fun a b => a * b) u v).sum

/-- Squared Euclidean norm of a vector, so that
`np.linalg.norm v = ratSqrt (normSq v)`. -/
def normSq (v : List ℚ) : ℚ :=
  (v.map (fun a => a * a)).sum

/-- Cosine similarity as computed at lines 214-216, 239-241, 247-249 and
262-264 of the source:
`np.dot(u, v) / (np.linalg.norm(u) * np.linalg.norm(v))`.
The source performs the division even when a norm is zero (numpy then
yields nan/inf); in this rational model division by zero yields `0`. -/
def cosineSimQ (u v : List ℚ) : ℚ :=
  dotQ u v / (ratSqrt (normSq u) * ratSqrt (normSq v))

/-- Stable insertion of `x` into a list sorted descending by `key`:
`x` goes after every earlier element whose key is ≥ its own. -/
def insertDescBy (key : α → ℚ) (x : α) : List α → List α
  | [] => [x]
  | y :: ys => if key y < key x then x :: y :: ys else y :: insertDescBy key x ys

/-- Stable descending sort, the model of Python's
`sorted(..., key=..., reverse=True)` / `list.sort(key=..., reverse=True)`
(Python's sort is stable; any stable sort computes the same list). -/
def sortDescBy (key : α → ℚ) (l : List α) : List α :=
  l.foldl (fun acc x => insertDescBy key x acc) []

/-- `MemoryNode` dataclass (source lines 29-41).  `content` and
`metadata` are opaque string dictionaries; only `metadata["sender"]` is
ever read by the core. -/
structure MemoryNode where
  id : String
  content : List (String × String)
  embedding : Option (List ℚ)
  timestamp : ℤ
  access_count : ℕ
  last_accessed : ℤ
  importance_score : ℚ
  decay_rate : ℚ
  connections : List (String × ℚ)
  metadata : List (String × String)
deriving DecidableEq

/-- `MemoryController` (source lines 44-54). -/
structure MemoryController where
  working_memory_size : ℕ
  short_term_size : ℕ
  consolidation_interval : ℕ
  last_consolidation : ℤ
deriving DecidableEq

/-- A `LongTermMemory` row as written by `_persist_to_long_term`
(source lines 455-467); the raw embedding bytes are modelled by the
vector itself (`None` stays `None`, and an empty vector serialises to
falsy empty bytes). -/
structure LongTermMemory where
  id : String
  content : List (String × String)
  embedding : Option (List ℚ)
  importance_score : ℚ
  access_count : ℕ
  last_accessed : ℤ
  created_at : ℤ
  metadata : List (String × String)
deriving DecidableEq

/-- The fields of a `SenderProfile` row touched by
`_persist_to_long_term` (source lines 469-482). -/
structure SenderProfile where
  email : String
  importance_score : ℚ
  total_messages : ℕ
  last_interaction : ℤ
deriving DecidableEq

/-- The mutable state of `CognitiveMemorySystem` (source lines 107-118)
together with the database rows written through its session:
`long_term` holds the `LongTermMemory` rows added by consolidation and
`sender_profiles` the sender-profile table. -/
structure CognitiveMemorySystem where
  working_memory : List MemoryNode
  short_term_memory : List (String × MemoryNode)
  memory_graph : List (String × List (String × ℚ))
  memory_controller : MemoryController
  long_term : List LongTermMemory
  sender_profiles : List (String × SenderProfile)
deriving DecidableEq

/-- Lookup in an opaque string dictionary (`dict.get`). -/
def lookupStr (d : List (String × String)) (k : String) : Option String :=
  (d.find? (fun p => p.1 = k)).map (·.2)

/-- `list(self.short_term_memory.values())`. -/
def stmValues (s : CognitiveMemorySystem) : List MemoryNode :=
  s.short_term_memory.map (·.2)

/-- `self.short_term_memory[k]` / `k in self.short_term_memory`. -/
def stmLookup (stm : List (String × MemoryNode)) (k : String) : Option MemoryNode :=
  (stm.find? (fun p => p.1 = k)).map (·.2)

/-- The construction-time default state (`__init__`, lines 107-118,
with `MemoryController()` defaults 20/100/300 from lines 47-54):
empty deque of `maxlen=20`, empty short-term dict, empty adjacency
index, and an empty database. -/
def initSys (t0 : ℤ) : CognitiveMemorySystem :=
  { working_memory := []
    short_term_memory := []
    memory_graph := []
    memory_controller :=
      { working_memory_size := 20, short_term_size := 100,
        consolidation_interval := 300, last_consolidation := t0 }
    long_term := []
    sender_profiles := [] }

/-- Survivors of `deque(maxlen=cap).append`: appending one element to
`xs` keeps the last `cap` elements, so the retained prefix of `xs` is
`xs` minus its oldest overflow (`drop` truncates at 0 for `ℕ`). -/
def dequeKeep (cap : ℕ) (xs : List α) : List α :=
  xs.drop (xs.length + 1 - cap)

/-- One step of the similarity scan of `_update_memory_connections`
(source lines 209-223), restricted to the matches it finds: the new
node itself is skipped by the `memory.id == new_node.id` test, nodes
without an embedding are skipped, and a pair `(memory.id, similarity)`
is produced exactly when `similarity > 0.7`. -/
def connMatches (nid : String) (ne : List ℚ) (mems : List MemoryNode) : List (String × ℚ) :=
  mems.filterMap (fun m =>
    if m.id = nid then none
    else match m.embedding with
      | none => none
      | some e =>
        if 7/10 < cosineSimQ ne e then some (m.id, cosineSimQ ne e) else none)

/-- The per-resident mutation performed by the same scan: a resident
`m` (other than the new node) whose similarity to the new embedding
exceeds `0.7` gets `(new_node.id, similarity)` appended to its
`connections` (source line 221); every other resident is untouched. -/
def mirrorConn (nid : String) (ne : List ℚ) (m : MemoryNode) : MemoryNode :=
  if m.id = nid then m
  else match m.embedding with
    | none => m
    | some e =>
      if 7/10 < cosineSimQ ne e then
        { m with connections := m.connections ++ [(nid, cosineSimQ ne e)] }
      else m

/-- `self.memory_graph[k].append(v)` on the `defaultdict(list)`
adjacency index: extend the entry of `k` in place, or create it at the
end (CPython dictionaries preserve insertion order). -/
def graphAppend (g : List (String × List (String × ℚ))) (k : String) (v : String × ℚ) :
    List (String × List (String × ℚ)) :=
  match g with
  | [] => [(k, [v])]
  | (k', l) :: rest =>
    if k' = k then (k', l ++ [v]) :: rest else (k', l) :: graphAppend rest k v

/-- The two `memory_graph` appends of source lines 222-223 for one
discovered link. -/
def addLinkPair (g : List (String × List (String × ℚ))) (nid mid : String) (σ : ℚ) :
    List (String × List (String × ℚ)) :=
  graphAppend (graphAppend g nid (mid, σ)) mid (nid, σ)

/-- Reading the adjacency index (`self.memory_graph[k]` as a read,
which for a `defaultdict` is `[]` when the key is absent). -/
def graphLookup (g : List (String × List (String × ℚ))) (k : String) : List (String × ℚ) :=
  match g.find? (fun p => p.1 = k) with
  | some p => p.2
  | none => []

/-- The `MemoryNode` literal built by `store_interaction` (source lines
176-187): caller-supplied importance stored as-is, defaults for access
count and decay, metadata carrying the message id, the sender (when
present in the content) and the interaction type.  The embedding
returned by the external `EmbeddingService` is a parameter. -/
def mkStoredNode (message_id : String) (content : List (String × String))
    (importance : ℚ) (embedding : Option (List ℚ)) (now : ℤ) : MemoryNode :=
  { id := "mem_" ++ message_id
    content := content
    embedding := embedding
    timestamp := now
    access_count := 0
    last_accessed := now
    importance_score := importance
    decay_rate := 1/10
    connections := []
    metadata := [("message_id", message_id)] ++
      (match lookupStr content "sender_email" with
       | some v => [("sender", v)]
       | none => []) ++ [("type", "interaction")] }

/-- `store_interaction` (source lines 166-199) followed by its call to
`_update_memory_connections` (lines 201-223), with the node record
split out as `mkStoredNode`. -/
def store_interaction (s : CognitiveMemorySystem) (message_id : String)
    (content : List (String × String)) (importance : ℚ)
    (embedding : Option (List ℚ)) (now : ℤ) : MemoryNode × CognitiveMemorySystem :=
  let node : MemoryNode := mkStoredNode message_id content importance embedding now
  let front := dequeKeep 20 s.working_memory
  match embedding with
  | none => (node, { s with working_memory := front ++ [node] })
  | some ne =>
    let ms := connMatches node.id ne (front ++ [node] ++ stmValues s)
    let node' := { node with connections := node.connections ++ ms }
    (node',
      { s with
        working_memory := front.map (mirrorConn node.id ne) ++ [node']
        short_term_memory :=
          s.short_term_memory.map (fun kv => (kv.1, mirrorConn node.id ne kv.2))
        memory_graph := ms.foldl (fun g p => addLinkPair g node.id p.1 p.2) s.memory_graph })

/-- The Working-tier ranking of `MemoryController.consolidate_memories`
(source lines 69-74): `importance*0.7 + (1/(1 + Δ.seconds/3600))*0.3`,
where `Δ.seconds` is the seconds component of the timedelta. -/
def workingRank (now : ℤ) (m : MemoryNode) : ℚ :=
  m.importance_score * (7/10) +
    (1 / (1 + (((now - m.timestamp) % 86400 : ℤ) : ℚ) / 3600)) * (3/10)

/-- The Short-Term ranking of the same pass (source line 83):
`importance * (1 - decay_rate)`. -/
def shortTermRank (m : MemoryNode) : ℚ :=
  m.importance_score * (1 - m.decay_rate)

/-- The persistence test of source line 92:
`importance_score > 0.7 or access_count > 5`. -/
def shouldPersist (m : MemoryNode) : Bool :=
  decide (7/10 < m.importance_score) || decide (5 < m.access_count)

/-- `MemoryController.consolidate_memories` (source lines 61-98):
sort Working descending by rank, slice off everything beyond
`working_memory_size` into the short-term pool, re-sort that pool
descending by the short-term rank, and split the part beyond
`short_term_size` into `(to_persist, to_remove)` by the persistence
test.  (The mutation of `last_consolidation` is applied by the caller
`consolidateSys` below.) -/
def MemoryController.consolidate_memories (c : MemoryController)
    (working short_term : List MemoryNode) (now : ℤ) :
    List MemoryNode × List String :=
  let working_sorted := sortDescBy (workingRank now) working
  let to_short_term := working_sorted.drop c.working_memory_size
  let all_short_term := short_term ++ to_short_term
  let short_term_sorted := sortDescBy shortTermRank all_short_term
  let beyond := short_term_sorted.drop c.short_term_size
  (beyond.filter shouldPersist,
   (beyond.filter (fun m => ! shouldPersist m)).map (·.id))

/-- The `LongTermMemory` row built by `_persist_to_long_term`
(source lines 457-467). -/
def toLongTerm (m : MemoryNode) : LongTermMemory :=
  { id := m.id
    content := m.content
    embedding := m.embedding
    importance_score := m.importance_score
    access_count := m.access_count
    last_accessed := m.last_accessed
    created_at := m.timestamp
    metadata := m.metadata }

/-- The sender-profile update of `_persist_to_long_term` (source lines
475-482): bump the message count, stamp the interaction time, and nudge
the importance by `+0.01` capped at `1.0` via `min`. -/
def nudgeProfile (now : ℤ) (p : SenderProfile) : SenderProfile :=
  { p with
    total_messages := p.total_messages + 1
    last_interaction := now
    importance_score := min 1 (p.importance_score + 1/100) }

/-- Applies the sender-profile side of `_persist_to_long_term` for one
persisted node: only when the node's metadata carries a truthy sender
(the walrus `if sender_email := memory.metadata.get("sender")` is falsy
for a missing key and for the empty string) and a profile row already
exists. -/
def applySenderUpdate (now : ℤ) (profiles : List (String × SenderProfile))
    (m : MemoryNode) : List (String × SenderProfile) :=
  match lookupStr m.metadata "sender" with
  | some v =>
    if v = "" then profiles
    else profiles.map (fun kv => if kv.1 = v then (kv.1, nudgeProfile now kv.2) else kv)
  | none => profiles

/-- `_consolidate_memories` (source lines 142-164): run the controller
pass over a snapshot of the tiers, write a `LongTermMemory` row for
every node of `to_persist` (with its sender-profile update), pop every
id of `to_remove` from the short-term dict, and commit; the working
deque itself is never modified, and `last_consolidation` is stamped. -/
def consolidateSys (s : CognitiveMemorySystem) (now : ℤ) : CognitiveMemorySystem :=
  let pr := s.memory_controller.consolidate_memories s.working_memory (stmValues s) now
  { s with
    long_term := s.long_term ++ pr.1.map toLongTerm
    sender_profiles := pr.1.foldl (applySenderUpdate now) s.sender_profiles
    short_term_memory := s.short_term_memory.filter (fun kv => decide (kv.1 ∉ pr.2))
    memory_controller := { s.memory_controller with last_consolidation := now } }

/-- The durable store's failure mode (`StoreUnavailable`, spec §6). -/
inductive DurableStoreError where
  | storeUnavailable
deriving DecidableEq

/-- One entry of the list returned by `retrieve_relevant_memories`
(source lines 291-300). -/
structure RetrievedMemory where
  content : List (String × String)
  similarity : ℚ
  timestamp : ℤ
  importance : ℚ
  metadata : List (String × String)
deriving DecidableEq

/-- Candidate generation over an in-memory tier (source lines 236-250):
every node whose `embedding is not None` is paired with its cosine
similarity to the query — there is no zero-magnitude guard, the
division is performed regardless. -/
def gatherLocal (q : List ℚ) (nodes : List MemoryNode) : List (MemoryNode × ℚ) :=
  nodes.filterMap (fun n => n.embedding.map (fun e => (n, cosineSimQ q e)))

/-- The transient `MemoryNode` built from a `LongTermMemory` row during
retrieval (source lines 265-272); unspecified dataclass fields take
their defaults, with `last_accessed = now` from `datetime.utcnow`. -/
def nodeOfLongTerm (now : ℤ) (r : LongTermMemory) : MemoryNode :=
  { id := r.id
    content := r.content
    embedding := r.embedding
    timestamp := r.created_at
    access_count := r.access_count
    last_accessed := now
    importance_score := r.importance_score
    decay_rate := 1/10
    connections := []
    metadata := [] }

/-- Candidate generation over the fetched long-term rows (source lines
259-273): `if ltm.embedding:` is falsy both for `None` and for empty
embedding bytes. -/
def gatherLongTerm (q : List ℚ) (now : ℤ) (recs : List LongTermMemory) :
    List (MemoryNode × ℚ) :=
  recs.filterMap (fun r =>
    match r.embedding with
    | none => none
    | some e => if e = [] then none else some (nodeOfLongTerm now r, cosineSimQ q e))

/-- `activation_scores` lookup (`cid in activation_scores` /
`activation_scores[cid]`). -/
def scoresLookup (sc : List (String × ℚ)) (k : String) : Option ℚ :=
  (sc.find? (fun p => p.1 = k)).map (·.2)

/-- `activation_scores[k] = v` when the key is already present:
replace in place, keeping dictionary insertion order. -/
def scoresSet (sc : List (String × ℚ)) (k : String) (v : ℚ) : List (String × ℚ) :=
  sc.map (fun p => if p.1 = k then (p.1, v) else p)

/-- `activation_scores[k] = v` with dictionary semantics: overwrite in
place when present, append when absent. -/
def scoresAssign (sc : List (String × ℚ)) (k : String) (v : ℚ) : List (String × ℚ) :=
  match scoresLookup sc k with
  | some _ => scoresSet sc k v
  | none => sc ++ [(k, v)]

/-- The inner `for connected_id, connection_strength in
current_memory.connections` loop of `_spreading_activation` (source
lines 328-345), threading the score dictionary and accumulating the
entries appended to the work queue: per link, `spread = activation *
strength * 0.7`; below the `0.1` floor nothing happens; otherwise a
present score is raised to `max(existing, spread)`, and an absent score
is set to `spread` — in which case, and only then, a neighbor resident
in the short-term dict is enqueued with that activation. -/
def spreadLinks (stm : List (String × MemoryNode)) (act : ℚ) :
    List (String × ℚ) → List (String × ℚ) → List (MemoryNode × ℚ) →
    List (String × ℚ) × List (MemoryNode × ℚ)
  | [], sc, qAcc => (sc, qAcc)
  | (cid, strength) :: rest, sc, qAcc =>
    let spread := act * strength * (7/10)
    if 1/10 < spread then
      match scoresLookup sc cid with
      | some old => spreadLinks stm act rest (scoresSet sc cid (max old spread)) qAcc
      | none =>
        match stmLookup stm cid with
        | some m => spreadLinks stm act rest (sc ++ [(cid, spread)]) (qAcc ++ [(m, spread)])
        | none => spreadLinks stm act rest (sc ++ [(cid, spread)]) qAcc
    else spreadLinks stm act rest sc qAcc

/-- The `while queue:` loop of `_spreading_activation` (source lines
319-345): pop from the front; an already-visited node is skipped;
otherwise it is marked visited and its links are processed by
`spreadLinks`, whose new entries are appended to the queue.  The fuel
argument only bounds the recursion; `seeds.length + stm.length` pops
always suffice because every enqueue adds a fresh short-term key to the
score dictionary. -/
def spreadLoop (stm : List (String × MemoryNode)) :
    ℕ → List (MemoryNode × ℚ) → List (String × ℚ) → List String →
    List (String × ℚ)
  | 0, _, sc, _ => sc
  | _ + 1, [], sc, _ => sc
  | fuel + 1, (cur, act) :: rest, sc, visited =>
    if cur.id ∈ visited then spreadLoop stm fuel rest sc visited
    else
      let step := spreadLinks stm act cur.connections sc []
      spreadLoop stm fuel (rest ++ step.2) step.1 (cur.id :: visited)

/-- `memory_map` resolution of source lines 349-354: the short-term
dict overrides the seed map (`memory_map.update(...)`), and within the
seed comprehension a later seed with a duplicate id wins. -/
def resolveNode (seeds : List MemoryNode) (stm : List (String × MemoryNode))
    (idv : String) : Option MemoryNode :=
  match stmLookup stm idv with
  | some m => some m
  | none => seeds.reverse.find? (fun m => m.id = idv)

/-- `_spreading_activation` (source lines 302-357) with its fixed
`decay_factor = 0.7`: seed the score dictionary (`scores[id] =
activation`, overwriting duplicates), run the queue to exhaustion,
resolve the accumulated ids through `memory_map`, and sort the result
descending by activation score. -/
def spreading_activation (seeds : List (MemoryNode × ℚ))
    (stm : List (String × MemoryNode)) : List (MemoryNode × ℚ) :=
  let scores0 := seeds.foldl (fun sc p => scoresAssign sc p.1.id p.2) []
  let final := spreadLoop stm (seeds.length + stm.length) seeds scores0 []
  let merged := final.filterMap (fun p =>
    (resolveNode (seeds.map (·.1)) stm p.1).map (fun m => (m, p.2)))
  sortDescBy (·.2) merged

/-- The access bump of source lines 286-288 applied to the tier-resident
nodes among the returned memories (`access_count += 1`,
`last_accessed = now`); long-term-origin candidates are transient
objects and their mutation is not visible in the state. -/
def bumpAccess (now : ℤ) (ids : List String) (s : CognitiveMemorySystem) :
    CognitiveMemorySystem :=
  { s with
    working_memory := s.working_memory.map (fun m =>
      if m.id ∈ ids then { m with access_count := m.access_count + 1, last_accessed := now }
      else m)
    short_term_memory := s.short_term_memory.map (fun kv =>
      if kv.2.id ∈ ids then
        (kv.1, { kv.2 with access_count := kv.2.access_count + 1, last_accessed := now })
      else kv) }

/-- `retrieve_relevant_memories` (source lines 225-300).  The query
embedding and the outcome of the long-term query are parameters.  The
body has no exception handler: a `StoreUnavailable` raised by the
database query propagates to the caller (`Except.error`), with the
state untouched since candidate gathering mutates nothing.  On success
the candidates are sorted descending by similarity, the top `2k` seed
the spreading activation, the top `k` activated nodes get their access
counters bumped, and the result rows are returned. -/
def retrieve_relevant_memories (s : CognitiveMemorySystem) (q : List ℚ) (k : ℕ)
    (ltmRes : Except DurableStoreError (List LongTermMemory)) (now : ℤ) :
    Except DurableStoreError (List RetrievedMemory × CognitiveMemorySystem) :=
  let candidates := gatherLocal q s.working_memory ++ gatherLocal q (stmValues s)
  match ltmRes with
  | .error e => .error e
  | .ok recs =>
    let allCands := candidates ++ gatherLongTerm q now recs
    let sorted := sortDescBy (·.2) allCands
    let top := sorted.take (k * 2)
    let activated := spreading_activation top s.short_term_memory
    let topk := activated.take k
    let s' := bumpAccess now (topk.map (·.1.id)) s
    .ok (topk.map (fun p =>
      { content := p.1.content, similarity := p.2, timestamp := p.1.timestamp,
        importance := p.1.importance_score, metadata := p.1.metadata }), s')

/-- The state left behind by a retrieval call: the updated state on
success, the unmodified state when the store query raised. -/
def retrieveStateAfter (s : CognitiveMemorySystem) (q : List ℚ) (k : ℕ)
    (ltmRes : Except DurableStoreError (List LongTermMemory)) (now : ℤ) :
    CognitiveMemorySystem :=
  match retrieve_relevant_memories s q k ltmRes now with
  | .ok pr => pr.2
  | .error _ => s

/-- The states reachable from a freshly constructed system by any
sequence of `store_interaction`, `retrieve_relevant_memories` and
consolidation passes, with arbitrary collaborator responses. -/
inductive Reachable : CognitiveMemorySystem → Prop
  | init (t0 : ℤ) : Reachable (initSys t0)
  | store (s : CognitiveMemorySystem) (mid : String) (c : List (String × String))
      (imp : ℚ) (emb : Option (List ℚ)) (now : ℤ) :
      Reachable s → Reachable (store_interaction s mid c imp emb now).2
  | retrieve (s : CognitiveMemorySystem) (q : List ℚ) (k : ℕ)
      (ltmRes : Except DurableStoreError (List LongTermMemory)) (now : ℤ) :
      Reachable s → Reachable (retrieveStateAfter s q k ltmRes now)
  | consolidate (s : CognitiveMemorySystem) (now : ℤ) :
      Reachable s → Reachable (consolidateSys s now)

/-- An embedding on which the rational model of the float square root
is exact: its norm is a rational number. -/
def ExactNorm (e : List ℚ) : Prop :=
  ratSqrt (normSq e) * ratSqrt (normSq e) = normSq e

/-- Reachability under well-behaved callers: every caller-supplied
importance lies in `[0,1]` and every supplied embedding has a rational
norm (so the square-root model is exact).  Same transitions as
`Reachable` otherwise. -/
inductive ReachableIn : CognitiveMemorySystem → Prop
  | init (t0 : ℤ) : ReachableIn (initSys t0)
  | store (s : CognitiveMemorySystem) (mid : String) (c : List (String × String))
      (imp : ℚ) (emb : Option (List ℚ)) (now : ℤ) :
      0 ≤ imp → imp ≤ 1 → (∀ e, emb = some e → ExactNorm e) →
      ReachableIn s → ReachableIn (store_interaction s mid c imp emb now).2
  | retrieve (s : CognitiveMemorySystem) (q : List ℚ) (k : ℕ)
      (ltmRes : Except DurableStoreError (List LongTermMemory)) (now : ℤ) :
      ReachableIn s → ReachableIn (retrieveStateAfter s q k ltmRes now)
  | consolidate (s : CognitiveMemorySystem) (now : ℤ) :
      ReachableIn s → ReachableIn (consolidateSys s now)

/-- Length of a stable insertion. -/
theorem insertDescBy_length (key : α → ℚ) (x : α) (l : List α) :
    (insertDescBy key x l).length = l.length + 1 := by
  induction l with
  | nil => rfl
  | cons y ys ih =>
    by_cases h : key y < key x <;> simp [insertDescBy, h, ih]

/-- Sorting preserves length. -/
theorem sortDescBy_length (key : α → ℚ) (l : List α) :
    (sortDescBy key l).length = l.length := by
  suffices h : ∀ acc : List α,
      (l.foldl (fun acc x => insertDescBy key x acc) acc).length = acc.length + l.length by
    simpa [sortDescBy] using h []
  induction l with
  | nil => intro acc; simp
  | cons y ys ih =>
    intro acc
    simp only [List.foldl_cons, ih, insertDescBy_length, List.length_cons]
    omega

/-- The facts about reachable states that the tier-residency claims
rest on: the short-term dict is never written, the working deque never
exceeds its `maxlen`, the long-term store receives no row, the sender
profile table stays empty, and the controller keeps its capacity 20. -/
def CoreInv (s : CognitiveMemorySystem) : Prop :=
  s.short_term_memory = [] ∧
  s.working_memory.length ≤ 20 ∧
  s.long_term = [] ∧
  s.sender_profiles = [] ∧
  s.memory_controller.working_memory_size = 20

/-- Under `CoreInv` a consolidation pass computes empty
`(to_persist, to_remove)` lists: nothing spills past the working
capacity (the deque's `maxlen` equals `working_memory_size`), and the
short-term pool is empty. -/
theorem consolidate_outcome_nil (s : CognitiveMemorySystem) (now : ℤ)
    (h : CoreInv s) :
    s.memory_controller.consolidate_memories s.working_memory (stmValues s) now
      = ([], []) := by
  obtain ⟨hstm, hlen, -, -, hcap⟩ := h
  have hshort : stmValues s = [] := by simp [stmValues, hstm]
  have hdrop :
      (sortDescBy (workingRank now) s.working_memory).drop
        s.memory_controller.working_memory_size = [] := by
    apply List.drop_eq_nil_of_le
    rw [sortDescBy_length, hcap]
    exact hlen
  have hnil : sortDescBy shortTermRank ([] : List MemoryNode) = [] := rfl
  simp [MemoryController.consolidate_memories, hdrop, hshort, hnil]

/-- `store_interaction` preserves `CoreInv`. -/
theorem store_preserves_core (s : CognitiveMemorySystem) (mid : String)
    (c : List (String × String)) (imp : ℚ) (emb : Option (List ℚ)) (now : ℤ)
    (h : CoreInv s) : CoreInv (store_interaction s mid c imp emb now).2 := by
  obtain ⟨hstm, hlen, hlt, hsp, hcap⟩ := h
  cases emb with
  | none =>
    refine ⟨?_, ?_, ?_, ?_, ?_⟩ <;>
      simp [store_interaction, hstm, hlt, hsp, hcap, dequeKeep] <;> omega
  | some ne =>
    refine ⟨?_, ?_, ?_, ?_, ?_⟩ <;>
      simp [store_interaction, hstm, hlt, hsp, hcap, dequeKeep] <;> omega

/-- A retrieval call preserves `CoreInv` whatever the durable store
answered. -/
theorem retrieve_preserves_core (s : CognitiveMemorySystem) (q : List ℚ) (k : ℕ)
    (ltmRes : Except DurableStoreError (List LongTermMemory)) (now : ℤ)
    (h : CoreInv s) : CoreInv (retrieveStateAfter s q k ltmRes now) := by
  obtain ⟨hstm, hlen, hlt, hsp, hcap⟩ := h
  cases ltmRes with
  | error e =>
    exact ⟨hstm, hlen, hlt, hsp, hcap⟩
  | ok recs =>
    refine ⟨?_, ?_, ?_, ?_, ?_⟩ <;>
      simp [retrieveStateAfter, retrieve_relevant_memories, bumpAccess,
        hstm, hlt, hsp, hcap] <;> omega

/-- A consolidation pass preserves `CoreInv`. -/
theorem consolidate_preserves_core (s : CognitiveMemorySystem) (now : ℤ)
    (h : CoreInv s) : CoreInv (consolidateSys s now) := by
  have hout := consolidate_outcome_nil s now h
  obtain ⟨hstm, hlen, hlt, hsp, hcap⟩ := h
  refine ⟨?_, ?_, ?_, ?_, ?_⟩
  · simp [consolidateSys, hout, hstm]
  · simpa [consolidateSys] using hlen
  · simp [consolidateSys, hout, hlt]
  · simp [consolidateSys, hout, hsp]
  · simp [consolidateSys, hcap]

/-- Every reachable state satisfies `CoreInv`. -/
theorem reachable_core (s : CognitiveMemorySystem) (h : Reachable s) : CoreInv s := by
  induction h with
  | init t0 => exact ⟨rfl, by simp [initSys], rfl, rfl, rfl⟩
  | store s mid c imp emb now _ ih => exact store_preserves_core s mid c imp emb now ih
  | retrieve s q k ltmRes now _ ih => exact retrieve_preserves_core s q k ltmRes now ih
  | consolidate s now _ ih => exact consolidate_preserves_core s now ih

/-- `ReachableIn` transitions are a subset of `Reachable` transitions. -/
theorem reachableIn_reachable (s : CognitiveMemorySystem) (h : ReachableIn s) :
    Reachable s := by
  induction h with
  | init t0 => exact .init t0
  | store s mid c imp emb now _ _ _ _ ih => exact .store s mid c imp emb now ih
  | retrieve s q k ltmRes now _ ih => exact .retrieve s q k ltmRes now ih
  | consolidate s now _ ih => exact .consolidate s now ih

/-- `mirrorConn` never changes a node's id. -/
theorem mirrorConn_id (nid : String) (ne : List ℚ) (m : MemoryNode) :
    (mirrorConn nid ne m).id = m.id := by
  unfold mirrorConn
  by_cases h : m.id = nid
  · simp [h]
  · cases he : m.embedding with
    | none => simp [h, he]
    | some e =>
      by_cases hσ : 7/10 < cosineSimQ ne e <;> simp [h, he, hσ]

/-- C10: in every reachable state the Short-Term tier is empty — no
operation ever inserts into the short-term dict (`store_interaction`
only appends to the Working deque), and the Working→Short-Term slice
`working_sorted[working_memory_size:]` of a consolidation pass is
always empty because the deque's `maxlen` (20) equals
`working_memory_size`, so every consolidation pass computes empty
`(to_persist, to_remove)` lists and all Short-Term behaviour operates
on an empty collection. -/
theorem claimC10_short_term_always_empty (s : CognitiveMemorySystem)
    (h : Reachable s) :
    s.short_term_memory = [] ∧
    (∀ now : ℤ, (sortDescBy (workingRank now) s.working_memory).drop
        s.memory_controller.working_memory_size = []) ∧
    (∀ mid : String, ∀ c : List (String × String), ∀ imp : ℚ,
      ∀ emb : Option (List ℚ), ∀ now : ℤ,
      (store_interaction s mid c imp emb now).2.short_term_memory = []) ∧
    (∀ now : ℤ,
      s.memory_controller.consolidate_memories s.working_memory (stmValues s) now
        = ([], [])) := by
  have hc := reachable_core s h
  obtain ⟨hstm, hlen, hlt, hsp, hcap⟩ := hc
  refine ⟨hstm, ?_, ?_, ?_⟩
  · intro now
    apply List.drop_eq_nil_of_le
    rw [sortDescBy_length, hcap]
    exact hlen
  · intro mid c imp emb now
    have := store_preserves_core s mid c imp emb now ⟨hstm, hlen, hlt, hsp, hcap⟩
    exact this.1
  · intro now
    exact consolidate_outcome_nil s now ⟨hstm, hlen, hlt, hsp, hcap⟩

/-- Witness for C10 at a concrete reachable state: one interaction has
been stored and the short-term dict is still empty. -/
theorem claimC10_witness :
    (store_interaction (initSys 0) "a" [] (1/2) none 0).2.short_term_memory = [] :=
  (claimC10_short_term_always_empty _
    (.store (initSys 0) "a" [] (1/2) none 0 (.init 0))).1

/-- C4: at every reachable observation point a node id is resident in
at most one live tier, after any consolidation pass every persisted
node is absent from the Short-Term tier, and no id is simultaneously in
the DurableStore rows written by this system and in a live tier.  (All
three hold because, as C10 establishes, the Short-Term tier and the set
of persisted rows stay empty in every reachable state.) -/
theorem claimC4_residency_invariant (s : CognitiveMemorySystem)
    (h : Reachable s) :
    (∀ idv : String,
      ¬((∃ m ∈ s.working_memory, m.id = idv) ∧
        (∃ kv ∈ s.short_term_memory, kv.1 = idv))) ∧
    (∀ now : ℤ,
      ∀ m ∈ (s.memory_controller.consolidate_memories s.working_memory
          (stmValues s) now).1,
        ¬∃ kv ∈ (consolidateSys s now).short_term_memory, kv.1 = m.id) ∧
    (∀ r ∈ s.long_term,
      (¬∃ m ∈ s.working_memory, m.id = r.id) ∧
      (¬∃ kv ∈ s.short_term_memory, kv.1 = r.id)) := by
  have hc := reachable_core s h
  obtain ⟨hstm, hlen, hlt, hsp, hcap⟩ := hc
  refine ⟨?_, ?_, ?_⟩
  · intro idv hcontra
    rcases hcontra.2 with ⟨kv, hkv, -⟩
    rw [hstm] at hkv
    exact (List.not_mem_nil kv) hkv
  · intro now m hm hex
    have hcons := consolidate_preserves_core s now ⟨hstm, hlen, hlt, hsp, hcap⟩
    rcases hex with ⟨kv, hkv, -⟩
    rw [hcons.1] at hkv
    exact (List.not_mem_nil kv) hkv
  · intro r hr
    rw [hlt] at hr
    exact absurd hr (List.not_mem_nil r)

/-- Witness for C4 at the initial reachable state. -/
theorem claimC4_witness :
    ¬((∃ m ∈ (initSys 0).working_memory, m.id = "mem_a") ∧
      (∃ kv ∈ (initSys 0).short_term_memory, kv.1 = "mem_a")) :=
  (claimC4_residency_invariant (initSys 0) (.init 0)).1 "mem_a"

/-- A consolidation pass whose controller computes empty
`(to_persist, to_remove)` lists leaves all tiers and durable rows
unchanged. -/
theorem consolidateSys_of_nil (s : CognitiveMemorySystem) (now : ℤ)
    (h : s.memory_controller.consolidate_memories s.working_memory
        (stmValues s) now = ([], [])) :
    (consolidateSys s now).working_memory = s.working_memory ∧
    (consolidateSys s now).short_term_memory = s.short_term_memory ∧
    (consolidateSys s now).long_term = s.long_term := by
  refine ⟨?_, ?_, ?_⟩ <;> simp [consolidateSys, h]

/-- C5: from any reachable state, a second consolidation pass run
immediately after a first one persists nothing, removes nothing, and
leaves every tier (and the durable rows) exactly as the first pass left
them. -/
theorem claimC5_consolidation_idempotent (s : CognitiveMemorySystem)
    (now1 now2 : ℤ) (h : Reachable s) :
    ((consolidateSys s now1).memory_controller.consolidate_memories
        (consolidateSys s now1).working_memory
        (stmValues (consolidateSys s now1)) now2 = ([], [])) ∧
    (consolidateSys (consolidateSys s now1) now2).working_memory
      = (consolidateSys s now1).working_memory ∧
    (consolidateSys (consolidateSys s now1) now2).short_term_memory
      = (consolidateSys s now1).short_term_memory ∧
    (consolidateSys (consolidateSys s now1) now2).long_term
      = (consolidateSys s now1).long_term := by
  have h1 : CoreInv (consolidateSys s now1) :=
    consolidate_preserves_core s now1 (reachable_core s h)
  have hout := consolidate_outcome_nil (consolidateSys s now1) now2 h1
  have hfix := consolidateSys_of_nil (consolidateSys s now1) now2 hout
  exact ⟨hout, hfix.1, hfix.2.1, hfix.2.2⟩

/-- Witness for C5: the double pass from the initial state. -/
theorem claimC5_witness :
    (consolidateSys (initSys 0) 1).memory_controller.consolidate_memories
      (consolidateSys (initSys 0) 1).working_memory
      (stmValues (consolidateSys (initSys 0) 1)) 2 = ([], []) :=
  (claimC5_consolidation_idempotent (initSys 0) 1 2 (.init 0)).1

/-- A one-store state whose single working node carries embedding
`[1]`, so that a retrieval would have a Working-tier candidate. -/
def oneNodeSys : CognitiveMemorySystem :=
  (store_interaction (initSys 0) "a" [] (1/2) (some [1]) 0).2

/-- Counterexample to C6: with a Working-tier candidate available and
the durable store failing, `retrieve_relevant_memories` does not return
a ranked list — the `StoreUnavailable` error propagates to the caller
(the body of source lines 252-273 has no exception handler). -/
theorem claimC6_counterexample :
    (gatherLocal [1] oneNodeSys.working_memory).length = 1 ∧
    retrieve_relevant_memories oneNodeSys [1] 5
        (.error .storeUnavailable) 0 = .error .storeUnavailable ∧
    ∀ res : List RetrievedMemory × CognitiveMemorySystem,
      retrieve_relevant_memories oneNodeSys [1] 5
        (.error .storeUnavailable) 0 ≠ .ok res := by
  refine ⟨by decide, rfl, ?_⟩
  intro res h
  exact Except.noConfusion h

/-- C6 amended: when the DurableStore query fails during
`retrieve_relevant_memories`, the error propagates to the caller
unchanged (no result list is produced from the Working/Short-Term
candidates, and the state is untouched). -/
theorem claimC6_amended_error_propagates (s : CognitiveMemorySystem)
    (q : List ℚ) (k : ℕ) (e : DurableStoreError) (now : ℤ) :
    retrieve_relevant_memories s q k (.error e) now = .error e ∧
    retrieveStateAfter s q k (.error e) now = s := by
  exact ⟨rfl, rfl⟩

/-- The state reached by storing 21 interactions with strictly
decreasing importance (`1 - i/100` for `i = 0..20`), all at time 0 and
without embeddings. -/
def c1state : CognitiveMemorySystem :=
  (List.range 21).foldl
    (fun s i => (store_interaction s (toString i) [] (1 - (i : ℚ)/100) none 0).2)
    (initSys 0)

/-- Counterexample to C1: after the 21st insertion the Working tier
does hold exactly 20 nodes, but the node that disappeared is the
*oldest* one (`mem_0`), not the lowest-ranked one — `mem_19`, the
existing node with the strictly smallest `workingRank` (all nodes share
timestamp 0, and `mem_0` outranks `mem_19` at any observation time,
shown here at time 0) — and the evicted node was not moved to the
Short-Term tier, which is still empty. -/
theorem claimC1_counterexample :
    c1state.working_memory.length = 20 ∧
    "mem_0" ∉ c1state.working_memory.map (·.id) ∧
    "mem_19" ∈ c1state.working_memory.map (·.id) ∧
    c1state.short_term_memory = [] ∧
    workingRank 0 (store_interaction (initSys 0) "0" [] 1 none 0).1
      > workingRank 0 (store_interaction (initSys 0) "19" [] (81/100) none 0).1 := by
  refine ⟨by decide, by decide, by decide, by decide, ?_⟩
  norm_num [workingRank, store_interaction, mkStoredNode, initSys, dequeKeep]

/-- C1 amended: inserting into a Working tier already holding its
`maxlen` of 20 nodes silently discards the oldest (first) node —
`deque.append` semantics, independent of any ranking — the new node is
appended at the back, the tier ends at exactly 20 nodes, and nothing is
moved into the Short-Term tier. -/
theorem claimC1_amended_oldest_discarded (s : CognitiveMemorySystem)
    (mid : String) (c : List (String × String)) (imp : ℚ)
    (emb : Option (List ℚ)) (now : ℤ)
    (h : s.working_memory.length = 20) :
    (store_interaction s mid c imp emb now).2.working_memory.map (·.id)
      = (s.working_memory.drop 1).map (·.id) ++ ["mem_" ++ mid] ∧
    (store_interaction s mid c imp emb now).2.working_memory.length = 20 ∧
    (store_interaction s mid c imp emb now).2.short_term_memory.length
      = s.short_term_memory.length := by
  have hkeep : dequeKeep 20 s.working_memory = s.working_memory.drop 1 := by
    unfold dequeKeep
    rw [h]
  cases emb with
  | none =>
    refine ⟨?_, ?_, ?_⟩ <;> simp [store_interaction, mkStoredNode, hkeep, h]
  | some ne =>
    have hfun : ((fun x : MemoryNode => x.id) ∘ mirrorConn ("mem_" ++ mid) ne)
        = fun x : MemoryNode => x.id := funext fun m => mirrorConn_id _ _ m
    refine ⟨?_, ?_, ?_⟩ <;>
      simp [store_interaction, mkStoredNode, hkeep, h, hfun]

/-- A state holding exactly 20 stored interactions (the Working deque
at its `maxlen`). -/
def mkInit20 : CognitiveMemorySystem :=
  (List.range 20).foldl
    (fun s i => (store_interaction s (toString i) [] (1/2) none 0).2)
    (initSys 0)

/-- Witness for the amended C1: a store into a full 20-node Working
tier leaves exactly 20 nodes. -/
theorem claimC1_amended_witness :
    mkInit20.working_memory.length = 20 ∧
    (store_interaction mkInit20 "x" [] (1/2) none 0).2.working_memory.length = 20 :=
  ⟨by decide,
   (claimC1_amended_oldest_discarded mkInit20 "x" [] (1/2) none 0 (by decide)).2.1⟩

/-- C3: in any consolidation pass, a node of the short-term pool that
falls beyond the Short-Term capacity cutoff (the tail of the pool
sorted descending by `importance * (1 - decay_rate)`) is placed on the
persist list exactly when `importance > 0.7` or `access_count > 5`, and
otherwise its id is placed on the removal list (discarded with no
durable copy). -/
theorem claimC3_persistence_partition (c : MemoryController)
    (working short_term : List MemoryNode) (now : ℤ) (m : MemoryNode)
    (hm : m ∈ (sortDescBy shortTermRank
        (short_term ++
          (sortDescBy (workingRank now) working).drop c.working_memory_size)).drop
        c.short_term_size) :
    (m ∈ (c.consolidate_memories working short_term now).1 ↔
      (7/10 < m.importance_score ∨ 5 < m.access_count)) ∧
    (¬(7/10 < m.importance_score ∨ 5 < m.access_count) →
      m ∉ (c.consolidate_memories working short_term now).1 ∧
      m.id ∈ (c.consolidate_memories working short_term now).2) := by
  have hpersist : shouldPersist m = true ↔
      (7/10 < m.importance_score ∨ 5 < m.access_count) := by
    simp [shouldPersist]
  constructor
  · constructor
    · intro hmem
      simp only [MemoryController.consolidate_memories] at hmem
      exact hpersist.mp (List.mem_filter.mp hmem).2
    · intro hcond
      simp only [MemoryController.consolidate_memories]
      exact List.mem_filter.mpr ⟨hm, hpersist.mpr hcond⟩
  · intro hncond
    have hfalse : shouldPersist m = false :=
      Bool.of_not_eq_true (fun ht => hncond (hpersist.mp ht))
    constructor
    · intro hmem
      simp only [MemoryController.consolidate_memories] at hmem
      rw [(List.mem_filter.mp hmem).2] at hfalse
      exact Bool.noConfusion hfalse
    · simp only [MemoryController.consolidate_memories]
      exact List.mem_map.mpr ⟨m, List.mem_filter.mpr ⟨hm, by simp [hfalse]⟩, rfl⟩

/-- A bare short-term node for exercising the consolidation partition. -/
def c3node (idv : String) (imp : ℚ) (acc : ℕ) : MemoryNode :=
  { id := idv, content := [], embedding := none, timestamp := 0,
    access_count := acc, last_accessed := 0, importance_score := imp,
    decay_rate := 1/10, connections := [], metadata := [] }

/-- A controller with Short-Term capacity 1, so that a three-node pool
has two nodes beyond the cutoff. -/
def c3ctrl : MemoryController :=
  { working_memory_size := 20, short_term_size := 1,
    consolidation_interval := 300, last_consolidation := 0 }

/-- Witness for C3 enacting spec Scenarios 3 and 4: beyond the cutoff,
the node with `importance=0.8, access_count=1` is persisted (importance
wins although the access count is low), and the node with
`importance=0.4, access_count=2` is discarded — its id is on the
removal list and it is not persisted. -/
theorem claimC3_witness :
    (c3node "mem_s3" (8/10) 1 ∈
      (c3ctrl.consolidate_memories []
        [c3node "top" (9/10) 0, c3node "mem_s3" (8/10) 1, c3node "mem_s4" (4/10) 2] 0).1) ∧
    (c3node "mem_s4" (4/10) 2 ∉
      (c3ctrl.consolidate_memories []
        [c3node "top" (9/10) 0, c3node "mem_s3" (8/10) 1, c3node "mem_s4" (4/10) 2] 0).1) ∧
    ("mem_s4" ∈
      (c3ctrl.consolidate_memories []
        [c3node "top" (9/10) 0, c3node "mem_s3" (8/10) 1, c3node "mem_s4" (4/10) 2] 0).2) := by
  have hm3 : c3node "mem_s3" (8/10) 1 ∈ (sortDescBy shortTermRank
      ([c3node "top" (9/10) 0, c3node "mem_s3" (8/10) 1, c3node "mem_s4" (4/10) 2] ++
        (sortDescBy (workingRank 0) []).drop c3ctrl.working_memory_size)).drop
      c3ctrl.short_term_size := by
    norm_num [c3ctrl, c3node, sortDescBy, insertDescBy, shortTermRank]
  have hm4 : c3node "mem_s4" (4/10) 2 ∈ (sortDescBy shortTermRank
      ([c3node "top" (9/10) 0, c3node "mem_s3" (8/10) 1, c3node "mem_s4" (4/10) 2] ++
        (sortDescBy (workingRank 0) []).drop c3ctrl.working_memory_size)).drop
      c3ctrl.short_term_size := by
    norm_num [c3ctrl, c3node, sortDescBy, insertDescBy, shortTermRank]
  refine ⟨?_, ?_, ?_⟩
  · exact (claimC3_persistence_partition c3ctrl []
      [c3node "top" (9/10) 0, c3node "mem_s3" (8/10) 1, c3node "mem_s4" (4/10) 2] 0
      (c3node "mem_s3" (8/10) 1) hm3).1.mpr (by norm_num [c3node])
  · exact ((claimC3_persistence_partition c3ctrl []
      [c3node "top" (9/10) 0, c3node "mem_s3" (8/10) 1, c3node "mem_s4" (4/10) 2] 0
      (c3node "mem_s4" (4/10) 2) hm4).2 (by norm_num [c3node])).1
  · exact ((claimC3_persistence_partition c3ctrl []
      [c3node "top" (9/10) 0, c3node "mem_s3" (8/10) 1, c3node "mem_s4" (4/10) 2] 0
      (c3node "mem_s4" (4/10) 2) hm4).2 (by norm_num [c3node])).2

/-- The rational square root of 0 is 0. -/
theorem ratSqrt_zero : ratSqrt 0 = 0 := by
  have h : natSqrt 0 = 0 := by decide
  simp [ratSqrt, Rat.num_ofNat, Rat.den_ofNat, h]

/-- The rational square root of 1 is 1. -/
theorem ratSqrt_one : ratSqrt 1 = 1 := by
  have h : natSqrt 1 = 1 := by decide
  simp [ratSqrt, Rat.num_ofNat, Rat.den_ofNat, h]

/-- `ratSqrt` is non-negative. -/
theorem ratSqrt_nonneg (q : ℚ) : 0 ≤ ratSqrt q := by
  unfold ratSqrt
  positivity

/-- A squared norm is non-negative. -/
theorem normSq_nonneg (v : List ℚ) : 0 ≤ normSq v := by
  refine List.sum_nonneg ?_
  intro x hx
  obtain ⟨a, -, rfl⟩ := List.mem_map.mp hx
  exact mul_self_nonneg a

/-- Cauchy–Schwarz for the list dot product. -/
theorem dotQ_sq_le (u v : List ℚ) : dotQ u v ^ 2 ≤ normSq u * normSq v := by
  induction u generalizing v with
  | nil => simp [dotQ, normSq]
  | cons x u ih =>
    cases v with
    | nil => simp [dotQ, normSq]
    | cons y v =>
      have hA := normSq_nonneg u
      have hB := normSq_nonneg v
      have hd := ih v
      simp only [dotQ, normSq, List.zipWith_cons_cons, List.map_cons,
        List.sum_cons] at hA hB hd ⊢
      set A := (List.map (fun a => a * a) u).sum with hAdef
      set B := (List.map (fun a => a * a) v).sum with hBdef
      set d := (List.zipWith (fun a b => a * b) u v).sum with hddef
      rcases eq_or_lt_of_le hB with hB0 | hBpos
      · have hd2 : d ^ 2 ≤ 0 := by
          rw [← hB0, mul_zero] at hd
          exact hd
        have hd0 : d = 0 := by nlinarith [sq_nonneg d]
        rw [hd0, ← hB0]
        nlinarith [mul_nonneg hA (sq_nonneg y)]
      · nlinarith [sq_nonneg (x * B - y * d),
          mul_nonneg (sq_nonneg y) (sub_nonneg.mpr hd), hBpos]

/-- When both vectors have exactly representable norms, the model's
cosine similarity is at most 1 (Cauchy–Schwarz; with a zero norm the
division yields 0). -/
theorem cosineSimQ_le_one (u v : List ℚ) (hu : ExactNorm u) (hv : ExactNorm v) :
    cosineSimQ u v ≤ 1 := by
  unfold cosineSimQ
  set a := ratSqrt (normSq u) with ha'
  set b := ratSqrt (normSq v) with hb'
  have ha : 0 ≤ a := ratSqrt_nonneg _
  have hb : 0 ≤ b := ratSqrt_nonneg _
  have hd : dotQ u v ^ 2 ≤ (a * a) * (b * b) := by
    rw [ha', hb', hu, hv]
    exact dotQ_sq_le u v
  by_cases hab : a * b = 0
  · rw [hab, div_zero]
    norm_num
  · have hab' : 0 < a * b := lt_of_le_of_ne (mul_nonneg ha hb) (Ne.symm hab)
    rw [div_le_one hab']
    nlinarith [hd, hab', sq_nonneg (dotQ u v - a * b), sq_nonneg (dotQ u v + a * b)]

/-- A Working-tier node carrying a two-dimensional zero vector as its
embedding. -/
def zeroEmbSys : CognitiveMemorySystem :=
  (store_interaction (initSys 0) "z" [] (1/2) (some [0, 0]) 0).2

/-- Counterexample to C9: a resident node with a present but
zero-magnitude embedding is *not* excluded from the candidate set of
`retrieve_relevant_memories` — `gatherLocal` keeps it — and the
denominator of the similarity computed for it is exactly 0, i.e. the
division by zero the claim rules out is performed (numpy emits nan; the
rational model yields 0). -/
theorem claimC9_counterexample :
    normSq [(0 : ℚ), 0] = 0 ∧
    ratSqrt (normSq [(1 : ℚ)]) * ratSqrt (normSq [(0 : ℚ), 0]) = 0 ∧
    (gatherLocal [1] zeroEmbSys.working_memory).map (fun p => p.1.id) = ["mem_z"] := by
  have h0 : normSq [(0 : ℚ), 0] = 0 := by norm_num [normSq]
  refine ⟨h0, ?_, ?_⟩
  · rw [h0, ratSqrt_zero, mul_zero]
  · simp [gatherLocal, zeroEmbSys, store_interaction, mkStoredNode, initSys,
      dequeKeep, connMatches, stmValues]

/-- C9 amended: candidate generation tests only `embedding is not
None`: a node is a retrieval candidate exactly when it carries an
embedding, so a present zero-magnitude embedding is *included* rather
than excluded, its similarity being computed by the same division with
a denominator that is 0 for a zero-magnitude vector. -/
theorem claimC9_amended_no_zero_guard (q : List ℚ) (nodes : List MemoryNode)
    (m : MemoryNode) :
    ((∃ σ : ℚ, (m, σ) ∈ gatherLocal q nodes) ↔ m ∈ nodes ∧ m.embedding ≠ none) ∧
    (∀ e : List ℚ, m ∈ nodes → m.embedding = some e →
      (m, dotQ q e / (ratSqrt (normSq q) * ratSqrt (normSq e))) ∈ gatherLocal q nodes ∧
      (normSq e = 0 → ratSqrt (normSq q) * ratSqrt (normSq e) = 0)) := by
  constructor
  · constructor
    · rintro ⟨σ, hσ⟩
      obtain ⟨n, hn, heq⟩ := List.mem_filterMap.mp hσ
      obtain ⟨e, he, hpair⟩ := Option.map_eq_some'.mp heq
      obtain ⟨rfl, -⟩ := Prod.mk.injEq .. ▸ (Prod.mk.inj hpair)
      exact ⟨hn, by simp [he]⟩
    · rintro ⟨hmem, hemb⟩
      obtain ⟨e, he⟩ := Option.ne_none_iff_exists'.mp hemb
      exact ⟨cosineSimQ q e, List.mem_filterMap.mpr ⟨m, hmem, by simp [he]⟩⟩
  · intro e hmem he
    constructor
    · exact List.mem_filterMap.mpr ⟨m, hmem, by simp [he, cosineSimQ]⟩
    · intro hz
      rw [hz, ratSqrt_zero, mul_zero]

/-- Counterexample to C8: `store_interaction` stores the caller-supplied
importance without clamping (source line 181 assigns it directly), so
storing with importance `1.5` leaves a resident Working-tier node whose
importance lies outside `[0,1]`. -/
theorem claimC8_counterexample :
    (store_interaction (initSys 0) "big" [] (3/2) none 0).1.importance_score = 3/2 ∧
    (store_interaction (initSys 0) "big" [] (3/2) none 0).1 ∈
      (store_interaction (initSys 0) "big" [] (3/2) none 0).2.working_memory ∧
    ¬((store_interaction (initSys 0) "big" [] (3/2) none 0).1.importance_score ≤ 1) := by
  refine ⟨rfl, ?_, ?_⟩
  · simp [store_interaction, initSys, dequeKeep]
  · norm_num [store_interaction, mkStoredNode]

/-- A node whose stored embedding, when present, has an exactly
representable norm (so the square-root model is exact for it). -/
def EmbOk (m : MemoryNode) : Prop :=
  ∀ e : List ℚ, m.embedding = some e → ExactNorm e

/-- All strengths of a link list lie in `[0,1]`. -/
def strengthsOk (l : List (String × ℚ)) : Prop :=
  ∀ p ∈ l, 0 ≤ p.2 ∧ p.2 ≤ 1

/-- The per-node part of the range invariant. -/
def NodeOk (m : MemoryNode) : Prop :=
  (0 ≤ m.importance_score ∧ m.importance_score ≤ 1) ∧
  strengthsOk m.connections ∧ EmbOk m

/-- The range invariant over a whole state: every tier-resident node
has in-range importance, in-range link strengths and exact embeddings;
every adjacency-index strength is in range; every sender-profile
importance is in range. -/
def WellFormed (s : CognitiveMemorySystem) : Prop :=
  (∀ m ∈ s.working_memory ++ stmValues s, NodeOk m) ∧
  (∀ kv ∈ s.memory_graph, strengthsOk kv.2) ∧
  (∀ kv ∈ s.sender_profiles,
    0 ≤ kv.2.importance_score ∧ kv.2.importance_score ≤ 1)

/-- Every match produced by the connection scan has strength in
`(0.7, 1]` — in particular in `[0,1]` — provided the new embedding and
all scanned embeddings have exact norms. -/
theorem connMatches_bounds (nid : String) (ne : List ℚ) (mems : List MemoryNode)
    (hne : ExactNorm ne) (hemb : ∀ m ∈ mems, EmbOk m) :
    ∀ p ∈ connMatches nid ne mems, 0 ≤ p.2 ∧ p.2 ≤ 1 := by
  intro p hp
  obtain ⟨m, hm, heq⟩ := List.mem_filterMap.mp hp
  by_cases h1 : m.id = nid
  · simp [connMatches, h1] at heq
  · cases he : m.embedding with
    | none => simp [h1, he] at heq
    | some e =>
      by_cases h2 : 7/10 < cosineSimQ ne e
      · simp [h1, he, h2] at heq
        rw [← heq]
        constructor
        · show 0 ≤ cosineSimQ ne e
          linarith
        · show cosineSimQ ne e ≤ 1
          exact cosineSimQ_le_one _ _ hne (hemb m hm e he)
      · simp [h1, he, h2] at heq

/-- `mirrorConn` either leaves a node unchanged or appends one link of
strength equal to a 0.7-exceeding similarity. -/
theorem mirrorConn_eq_or (nid : String) (ne : List ℚ) (m : MemoryNode) :
    mirrorConn nid ne m = m ∨
    ∃ e : List ℚ, m.embedding = some e ∧ 7/10 < cosineSimQ ne e ∧
      mirrorConn nid ne m =
        { m with connections := m.connections ++ [(nid, cosineSimQ ne e)] } := by
  unfold mirrorConn
  by_cases h1 : m.id = nid
  · exact Or.inl (by simp [h1])
  · cases he : m.embedding with
    | none => exact Or.inl (by simp [h1, he])
    | some e =>
      by_cases h2 : 7/10 < cosineSimQ ne e
      · exact Or.inr ⟨e, rfl, h2, by simp [h1, h2]⟩
      · exact Or.inl (by simp [h1, h2])

/-- `mirrorConn` preserves the per-node range invariant. -/
theorem mirrorConn_nodeOk (nid : String) (ne : List ℚ) (m : MemoryNode)
    (hne : ExactNorm ne) (h : NodeOk m) : NodeOk (mirrorConn nid ne m) := by
  rcases mirrorConn_eq_or nid ne m with heq | ⟨e, he, hσ, heq⟩
  · rw [heq]; exact h
  · rw [heq]
    refine ⟨h.1, ?_, h.2.2⟩
    intro p hp
    rcases List.mem_append.mp hp with hold | hnew
    · exact h.2.1 p hold
    · have : p = (nid, cosineSimQ ne e) := List.mem_singleton.mp hnew
      rw [this]
      exact ⟨by linarith, cosineSimQ_le_one _ _ hne (h.2.2 e he)⟩

/-- `graphAppend` preserves in-range strengths when the appended value
is in range. -/
theorem graphAppend_ok (g : List (String × List (String × ℚ))) (k : String)
    (v : String × ℚ) (hg : ∀ kv ∈ g, strengthsOk kv.2)
    (hv : 0 ≤ v.2 ∧ v.2 ≤ 1) :
    ∀ kv ∈ graphAppend g k v, strengthsOk kv.2 := by
  induction g with
  | nil =>
    intro kv hkv
    simp [graphAppend] at hkv
    rw [hkv]
    intro p hp
    rw [List.mem_singleton.mp hp]
    exact hv
  | cons hd tl ih =>
    intro kv hkv
    by_cases hk : hd.1 = k
    · simp only [graphAppend, hk, if_true] at hkv
      rcases List.mem_cons.mp hkv with hkv | hkv
      · rw [hkv]
        intro p hp
        rcases List.mem_append.mp hp with hp | hp
        · exact hg hd (List.mem_cons_self hd tl) p hp
        · rw [List.mem_singleton.mp hp]
          exact hv
      · exact hg kv (List.mem_cons_of_mem hd hkv)
    · simp only [graphAppend, hk, if_false] at hkv
      rcases List.mem_cons.mp hkv with hkv | hkv
      · rw [hkv]
        exact hg hd (List.mem_cons_self hd tl)
      · exact ih (fun kv h => hg kv (List.mem_cons_of_mem hd h)) kv hkv

/-- `addLinkPair` preserves in-range strengths. -/
theorem addLinkPair_ok (g : List (String × List (String × ℚ)))
    (nid mid : String) (σ : ℚ) (hg : ∀ kv ∈ g, strengthsOk kv.2)
    (hσ : 0 ≤ σ ∧ σ ≤ 1) :
    ∀ kv ∈ addLinkPair g nid mid σ, strengthsOk kv.2 := by
  unfold addLinkPair
  exact graphAppend_ok _ _ _ (graphAppend_ok _ _ _ hg hσ) hσ

/-- Folding the per-match adjacency updates preserves in-range
strengths when every match is in range. -/
theorem foldl_addLinkPair_ok (nid : String) (ms : List (String × ℚ))
    (g : List (String × List (String × ℚ)))
    (hg : ∀ kv ∈ g, strengthsOk kv.2)
    (hms : ∀ p ∈ ms, 0 ≤ p.2 ∧ p.2 ≤ 1) :
    ∀ kv ∈ ms.foldl (fun g p => addLinkPair g nid p.1 p.2) g, strengthsOk kv.2 := by
  induction ms generalizing g with
  | nil => exact hg
  | cons p ps ih =>
    simp only [List.foldl_cons]
    exact ih _ (addLinkPair_ok g nid p.1 p.2 hg (hms p (List.mem_cons_self p ps)))
      (fun q hq => hms q (List.mem_cons_of_mem p hq))

/-- Shape of the state after a store without an embedding: the node is
appended to the (possibly truncated) working deque and nothing else
changes. -/
theorem store_none_spec (s : CognitiveMemorySystem) (mid : String)
    (c : List (String × String)) (imp : ℚ) (now : ℤ) :
    (store_interaction s mid c imp none now).2 =
      { s with working_memory :=
          dequeKeep 20 s.working_memory ++ [mkStoredNode mid c imp none now] } := rfl

/-- Shape of the state after a store with an embedding: deque append,
mirror updates on the surviving residents and the short-term values,
the new node carrying the discovered matches, and the adjacency index
extended pairwise per match. -/
theorem store_some_spec (s : CognitiveMemorySystem) (mid : String)
    (c : List (String × String)) (imp : ℚ) (ne : List ℚ) (now : ℤ) :
    (store_interaction s mid c imp (some ne) now).2 =
      { s with
        working_memory :=
          (dequeKeep 20 s.working_memory).map (mirrorConn ("mem_" ++ mid) ne) ++
          [{ mkStoredNode mid c imp (some ne) now with
              connections := connMatches ("mem_" ++ mid) ne
                (dequeKeep 20 s.working_memory ++
                  [mkStoredNode mid c imp (some ne) now] ++ stmValues s) }]
        short_term_memory := s.short_term_memory.map
          (fun kv => (kv.1, mirrorConn ("mem_" ++ mid) ne kv.2))
        memory_graph := (connMatches ("mem_" ++ mid) ne
            (dequeKeep 20 s.working_memory ++
              [mkStoredNode mid c imp (some ne) now] ++ stmValues s)).foldl
          (fun g p => addLinkPair g ("mem_" ++ mid) p.1 p.2) s.memory_graph } := by
  simp [store_interaction, mkStoredNode]

/-- The returned node of a store with an embedding: the fresh node
carrying the matches found by the scan. -/
theorem store_some_fst (s : CognitiveMemorySystem) (mid : String)
    (c : List (String × String)) (imp : ℚ) (ne : List ℚ) (now : ℤ) :
    (store_interaction s mid c imp (some ne) now).1 =
      { mkStoredNode mid c imp (some ne) now with
          connections := connMatches ("mem_" ++ mid) ne
            (dequeKeep 20 s.working_memory ++
              [mkStoredNode mid c imp (some ne) now] ++ stmValues s) } := by
  simp [store_interaction, mkStoredNode]

/-- Storing with in-range importance and an exact-norm embedding
preserves the range invariant. -/
theorem store_preserves_wf (s : CognitiveMemorySystem) (mid : String)
    (c : List (String × String)) (imp : ℚ) (emb : Option (List ℚ)) (now : ℤ)
    (h0 : 0 ≤ imp) (h1 : imp ≤ 1) (hemb : ∀ e, emb = some e → ExactNorm e)
    (h : WellFormed s) : WellFormed (store_interaction s mid c imp emb now).2 := by
  obtain ⟨hres, hgraph, hprof⟩ := h
  have hfront : ∀ m ∈ dequeKeep 20 s.working_memory, NodeOk m := fun m hm =>
    hres m (List.mem_append_left _ (List.mem_of_mem_drop hm))
  have hstmv : ∀ m ∈ stmValues s, NodeOk m := fun m hm =>
    hres m (List.mem_append_right _ hm)
  cases emb with
  | none =>
    rw [store_none_spec]
    refine ⟨?_, hgraph, hprof⟩
    intro m hm
    simp only [stmValues, List.mem_append] at hm
    rcases hm with (hf | hn) | hs
    · exact hfront m hf
    · rw [List.mem_singleton.mp hn]
      exact ⟨⟨h0, h1⟩, fun p hp => absurd hp (List.not_mem_nil p),
        fun e he => Option.noConfusion he⟩
    · exact hstmv m (by simpa [stmValues] using hs)
  | some ne =>
    have hne : ExactNorm ne := hemb ne rfl
    have hscan : ∀ m ∈ dequeKeep 20 s.working_memory ++
        [mkStoredNode mid c imp (some ne) now] ++ stmValues s, EmbOk m := by
      intro m hm
      rcases List.mem_append.mp hm with hl | hs
      · rcases List.mem_append.mp hl with hf | hn
        · exact (hfront m hf).2.2
        · rw [List.mem_singleton.mp hn]
          intro e he
          cases he
          exact hne
      · exact (hstmv m hs).2.2
    set ms := connMatches ("mem_" ++ mid) ne
      (dequeKeep 20 s.working_memory ++
        [mkStoredNode mid c imp (some ne) now] ++ stmValues s) with hmsdef
    have hmsOk : ∀ p ∈ ms, 0 ≤ p.2 ∧ p.2 ≤ 1 :=
      connMatches_bounds _ _ _ hne hscan
    rw [store_some_spec, ← hmsdef]
    refine ⟨?_, ?_, hprof⟩
    · intro m hm
      have hmem : m ∈
          (dequeKeep 20 s.working_memory).map (mirrorConn ("mem_" ++ mid) ne) ++
          [{ mkStoredNode mid c imp (some ne) now with connections := ms }] ++
          s.short_term_memory.map (fun kv => mirrorConn ("mem_" ++ mid) ne kv.2) := by
        simpa [stmValues, List.map_map, Function.comp, List.append_assoc] using hm
      rcases List.mem_append.mp hmem with hl | hs
      · rcases List.mem_append.mp hl with hf | hn
        · obtain ⟨m0, hm0, rfl⟩ := List.mem_map.mp hf
          exact mirrorConn_nodeOk _ _ _ hne (hfront m0 hm0)
        · rw [List.mem_singleton.mp hn]
          exact ⟨⟨h0, h1⟩, hmsOk, fun e he => by cases he; exact hne⟩
      · obtain ⟨kv0, hkv0, rfl⟩ := List.mem_map.mp hs
        exact mirrorConn_nodeOk _ _ _ hne
          (hstmv kv0.2 (List.mem_map.mpr ⟨kv0, hkv0, rfl⟩))
    · exact foldl_addLinkPair_ok _ _ _ hgraph hmsOk

/-- Bumping access counters preserves the range invariant (it touches
neither importance, nor links, nor embeddings). -/
theorem bump_preserves_wf (now : ℤ) (ids : List String)
    (s : CognitiveMemorySystem) (h : WellFormed s) :
    WellFormed (bumpAccess now ids s) := by
  obtain ⟨hres, hgraph, hprof⟩ := h
  refine ⟨?_, hgraph, hprof⟩
  intro m hm
  simp only [bumpAccess, stmValues, List.mem_append, List.mem_map,
    List.map_map, Function.comp] at hm
  rcases hm with ⟨m0, hm0, rfl⟩ | ⟨a, ha, rfl⟩
  · by_cases hc : m0.id ∈ ids
    · simp only [hc, if_true]
      exact hres m0 (List.mem_append_left _ hm0)
    · simp only [hc, if_false]
      exact hres m0 (List.mem_append_left _ hm0)
  · by_cases hc : a.2.id ∈ ids
    · rw [if_pos hc]
      exact hres a.2 (List.mem_append_right _ (List.mem_map.mpr ⟨a, ha, rfl⟩))
    · rw [if_neg hc]
      exact hres a.2 (List.mem_append_right _ (List.mem_map.mpr ⟨a, ha, rfl⟩))

/-- A retrieval call preserves the range invariant. -/
theorem retrieve_preserves_wf (s : CognitiveMemorySystem) (q : List ℚ) (k : ℕ)
    (ltmRes : Except DurableStoreError (List LongTermMemory)) (now : ℤ)
    (h : WellFormed s) : WellFormed (retrieveStateAfter s q k ltmRes now) := by
  cases ltmRes with
  | error e => exact h
  | ok recs => exact bump_preserves_wf now _ s h

/-- `applySenderUpdate` keeps all profile importances in `[0,1]` (the
nudge is `min 1 (x + 0.01)`). -/
theorem applySenderUpdate_ok (now : ℤ) (profiles : List (String × SenderProfile))
    (m : MemoryNode)
    (h : ∀ kv ∈ profiles, 0 ≤ kv.2.importance_score ∧ kv.2.importance_score ≤ 1) :
    ∀ kv ∈ applySenderUpdate now profiles m,
      0 ≤ kv.2.importance_score ∧ kv.2.importance_score ≤ 1 := by
  unfold applySenderUpdate
  cases hl : lookupStr m.metadata "sender" with
  | none => exact h
  | some v =>
    by_cases hv : v = ""
    · simp only [hv, if_true]
      exact h
    · simp only [hv, if_false]
      intro kv hkv
      obtain ⟨kv0, hkv0, rfl⟩ := List.mem_map.mp hkv
      by_cases hk : kv0.1 = v
      · simp only [hk, if_true]
        have hb := h kv0 hkv0
        constructor
        · exact le_min (by norm_num) (by linarith [hb.1])
        · exact min_le_left _ _
      · simp only [hk, if_false]
        exact h kv0 hkv0

/-- Folding the sender updates over the persisted nodes keeps all
profile importances in `[0,1]`. -/
theorem foldl_senderUpdate_ok (now : ℤ) (ms : List MemoryNode)
    (profiles : List (String × SenderProfile))
    (h : ∀ kv ∈ profiles, 0 ≤ kv.2.importance_score ∧ kv.2.importance_score ≤ 1) :
    ∀ kv ∈ ms.foldl (applySenderUpdate now) profiles,
      0 ≤ kv.2.importance_score ∧ kv.2.importance_score ≤ 1 := by
  induction ms generalizing profiles with
  | nil => exact h
  | cons m ms ih =>
    simp only [List.foldl_cons]
    exact ih _ (applySenderUpdate_ok now profiles m h)

/-- A consolidation pass preserves the range invariant. -/
theorem consolidate_preserves_wf (s : CognitiveMemorySystem) (now : ℤ)
    (h : WellFormed s) : WellFormed (consolidateSys s now) := by
  obtain ⟨hres, hgraph, hprof⟩ := h
  refine ⟨?_, ?_, ?_⟩
  · intro m hm
    simp only [consolidateSys, stmValues, List.mem_append, List.mem_map] at hm
    rcases hm with hw | ⟨kv, hkv, rfl⟩
    · exact hres m (List.mem_append_left _ hw)
    · exact hres kv.2 (List.mem_append_right _
        (List.mem_map.mpr ⟨kv, (List.mem_filter.mp hkv).1, rfl⟩))
  · intro kv hkv
    exact hgraph kv hkv
  · intro kv hkv
    exact foldl_senderUpdate_ok now _ _ hprof kv hkv

/-- The initial state satisfies the range invariant. -/
theorem initSys_wf (t0 : ℤ) : WellFormed (initSys t0) := by
  refine ⟨?_, ?_, ?_⟩ <;> intro x hx <;> simp [initSys, stmValues] at hx

/-- Every state reachable under well-behaved callers satisfies the
range invariant. -/
theorem reachableIn_wf (s : CognitiveMemorySystem) (h : ReachableIn s) :
    WellFormed s := by
  induction h with
  | init t0 => exact initSys_wf t0
  | store s mid c imp emb now h0 h1 hemb _ ih =>
    exact store_preserves_wf s mid c imp emb now h0 h1 hemb ih
  | retrieve s q k ltmRes now _ ih => exact retrieve_preserves_wf s q k ltmRes now ih
  | consolidate s now _ ih => exact consolidate_preserves_wf s now ih

/-- C8 amended: `store_interaction` stores the caller-supplied
importance *without* clamping (see the counterexample), so the range
invariant holds conditionally: provided every caller-supplied
importance lies in `[0,1]` (and supplied embeddings have exactly
representable norms, where the rational square-root model is exact),
every resident node's importance, every link strength held by a
resident node, and every adjacency-index strength lies in `[0,1]`;
sender-profile importances stay in `[0,1]`, and the profile nudge
`min(1.0, x + 0.01)` is always capped at 1. -/
theorem claimC8_amended_range_invariant (s : CognitiveMemorySystem)
    (h : ReachableIn s) :
    (∀ m ∈ s.working_memory ++ stmValues s,
      (0 ≤ m.importance_score ∧ m.importance_score ≤ 1) ∧
      ∀ p ∈ m.connections, 0 ≤ p.2 ∧ p.2 ≤ 1) ∧
    (∀ kv ∈ s.memory_graph, ∀ p ∈ kv.2, 0 ≤ p.2 ∧ p.2 ≤ 1) ∧
    (∀ kv ∈ s.sender_profiles,
      0 ≤ kv.2.importance_score ∧ kv.2.importance_score ≤ 1) ∧
    (∀ (now : ℤ) (p : SenderProfile), (nudgeProfile now p).importance_score ≤ 1) := by
  obtain ⟨hres, hgraph, hprof⟩ := reachableIn_wf s h
  refine ⟨?_, hgraph, hprof, ?_⟩
  · intro m hm
    exact ⟨(hres m hm).1, (hres m hm).2.1⟩
  · intro now p
    exact min_le_left _ _

/-- A vector of squared norm 1 has an exact norm in the model. -/
theorem exactNorm_of_one (e : List ℚ) (h : normSq e = 1) : ExactNorm e := by
  unfold ExactNorm
  rw [h, ratSqrt_one]
  norm_num

/-- Two interactions stored with in-range importances and unit-norm
embeddings of similarity `0.8`. -/
def twoNodeSys : CognitiveMemorySystem :=
  (store_interaction
    (store_interaction (initSys 0) "a" [] (1/2) (some [1, 0]) 0).2
    "b" [] (3/4) (some [4/5, 3/5]) 0).2

/-- A profile close to the importance cap. -/
def c8profile : SenderProfile :=
  { email := "u"
    importance_score := 995/1000
    total_messages := 0
    last_interaction := 0 }

/-- Witness for the amended C8 at a concrete reachable-under-well-
behaved-callers state holding a genuine similarity link. -/
theorem claimC8_amended_witness :
    (nudgeProfile 0 c8profile).importance_score ≤ 1 := by
  have h1 : ReachableIn (initSys 0) := .init 0
  have h2 : ReachableIn (store_interaction (initSys 0) "a" [] (1/2) (some [1, 0]) 0).2 :=
    .store _ "a" [] (1/2) (some [1, 0]) 0 (by norm_num) (by norm_num)
      (fun e he => by cases he; exact exactNorm_of_one _ (by norm_num [normSq])) h1
  have h3 : ReachableIn twoNodeSys :=
    .store _ "b" [] (3/4) (some [4/5, 3/5]) 0 (by norm_num) (by norm_num)
      (fun e he => by cases he; exact exactNorm_of_one _ (by norm_num [normSq])) h2
  exact (claimC8_amended_range_invariant twoNodeSys h3).2.2.2 0 _

/-- Lookup through a cons cell of the score dictionary. -/
theorem scoresLookup_cons (p : String × ℚ) (ps : List (String × ℚ)) (cid : String) :
    scoresLookup (p :: ps) cid =
      if p.1 = cid then some p.2 else scoresLookup ps cid := by
  by_cases h : p.1 = cid
  · simp [scoresLookup, List.find?, h]
  · simp [scoresLookup, List.find?, h]

/-- Updating one key of the score dictionary changes exactly that
key's lookup (to the written value when the key was present). -/
theorem scoresLookup_set (sc : List (String × ℚ)) (k : String) (v : ℚ) (cid : String) :
    scoresLookup (scoresSet sc k v) cid =
      if cid = k then (scoresLookup sc cid).map (fun _ => v)
      else scoresLookup sc cid := by
  induction sc with
  | nil => by_cases h : cid = k <;> simp [scoresLookup, scoresSet, h]
  | cons p ps ih =>
    have hset : scoresSet (p :: ps) k v
        = (if p.1 = k then (p.1, v) else p) :: scoresSet ps k v := rfl
    by_cases hp : p.1 = k
    · by_cases hpc : p.1 = cid
      · have hck : cid = k := by rw [← hpc, hp]
        simp [hset, scoresLookup_cons, hp, hpc, hck]
      · have hck : ¬cid = k := fun h => hpc (by rw [hp, ← h])
        have hkc : ¬k = cid := fun h => hpc (hp.trans h)
        simp [hset, scoresLookup_cons, hp, hpc, hck, hkc, ih]
    · by_cases hpc : p.1 = cid
      · have hck : ¬cid = k := fun h => hp (by rw [hpc, h])
        simp [hset, scoresLookup_cons, hp, hpc, hck]
      · simp [hset, scoresLookup_cons, hp, hpc, ih]

/-- Lookup after appending a fresh entry at the back of the score
dictionary: an existing binding wins; the appended binding is found
only when no earlier binding for the key exists. -/
theorem scoresLookup_append (sc : List (String × ℚ)) (k : String) (v : ℚ) (cid : String) :
    scoresLookup (sc ++ [(k, v)]) cid =
      match scoresLookup sc cid with
      | some x => some x
      | none => if cid = k then some v else none := by
  induction sc with
  | nil =>
    by_cases h : k = cid
    · simp [scoresLookup_cons, scoresLookup, h]
    · simp [scoresLookup_cons, scoresLookup, h, Ne.symm h]
  | cons p ps ih =>
    by_cases h : p.1 = cid
    · simp [scoresLookup_cons, h]
    · simp [scoresLookup_cons, h, ih]

/-- The spread values that the links of one node propagate to a given
neighbor id and that clear the `0.1` activation floor — the values the
spec says must be recorded (`spread = activation * strength * 0.7`). -/
def qualifyingSpreads (act : ℚ) : List (String × ℚ) → String → List ℚ
  | [], _ => []
  | (k, σ) :: rest, cid =>
    if k = cid ∧ 1/10 < act * σ * (7/10) then
      (act * σ * (7/10)) :: qualifyingSpreads act rest cid
    else qualifyingSpreads act rest cid

/-- Score characterization of the inner link loop: after processing all
links of the current node, a neighbor's score is the maximum of its
previous score and every qualifying spread reaching it (an absent score
starts from the first qualifying spread; a neighbor no qualifying
spread reaches keeps its previous state). -/
theorem spreadLinks_lookup (stm : List (String × MemoryNode)) (act : ℚ)
    (links : List (String × ℚ)) (sc : List (String × ℚ))
    (q0 : List (MemoryNode × ℚ)) (cid : String) :
    scoresLookup (spreadLinks stm act links sc q0).1 cid =
      match scoresLookup sc cid with
      | some old => some ((qualifyingSpreads act links cid).foldl max old)
      | none =>
        match qualifyingSpreads act links cid with
        | [] => none
        | v :: vs => some (vs.foldl max v) := by
  induction links generalizing sc q0 with
  | nil =>
    cases h : scoresLookup sc cid <;> simp [spreadLinks, qualifyingSpreads, h]
  | cons pr rest ih =>
    obtain ⟨k, σ⟩ := pr
    by_cases hq : 1/10 < act * σ * (7/10)
    · cases hsome : scoresLookup sc k with
      | some old =>
        have hstep : spreadLinks stm act ((k, σ) :: rest) sc q0
            = spreadLinks stm act rest
                (scoresSet sc k (max old (act * σ * (7/10)))) q0 := by
          simp only [spreadLinks]
          rw [if_pos hq, hsome]
        rw [hstep, ih]
        by_cases hkc : cid = k
        · subst hkc
          have hcons : qualifyingSpreads act ((cid, σ) :: rest) cid
              = (act * σ * (7/10)) :: qualifyingSpreads act rest cid := by
            simp only [qualifyingSpreads]
            rw [if_pos ⟨trivial, hq⟩]
          rw [scoresLookup_set, if_pos rfl, hsome, hcons]
          simp [List.foldl_cons]
        · have hkc2 : ¬k = cid := fun h => hkc h.symm
          have hcons : qualifyingSpreads act ((k, σ) :: rest) cid
              = qualifyingSpreads act rest cid := by
            simp only [qualifyingSpreads]
            rw [if_neg (fun h => hkc2 h.1)]
          rw [scoresLookup_set, if_neg hkc, hcons]
      | none =>
        have hcons : ∀ hkc : cid = k, qualifyingSpreads act ((k, σ) :: rest) cid
            = (act * σ * (7/10)) :: qualifyingSpreads act rest cid := by
          intro hkc
          simp only [qualifyingSpreads]
          rw [if_pos ⟨hkc.symm, hq⟩]
        have hkey :
            (match scoresLookup (sc ++ [(k, act * σ * (7/10))]) cid with
              | some old => some ((qualifyingSpreads act rest cid).foldl max old)
              | none =>
                match qualifyingSpreads act rest cid with
                | [] => none
                | v :: vs => some (vs.foldl max v))
            = (match scoresLookup sc cid with
              | some old =>
                some ((qualifyingSpreads act ((k, σ) :: rest) cid).foldl max old)
              | none =>
                match qualifyingSpreads act ((k, σ) :: rest) cid with
                | [] => none
                | v :: vs => some (vs.foldl max v)) := by
          rw [scoresLookup_append]
          by_cases hkc : cid = k
          · subst hkc
            rw [hsome, hcons rfl]
            simp
          · have hkc2 : ¬k = cid := fun h => hkc h.symm
            have hcons2 : qualifyingSpreads act ((k, σ) :: rest) cid
                = qualifyingSpreads act rest cid := by
              simp only [qualifyingSpreads]
              rw [if_neg (fun h => hkc2 h.1)]
            rw [hcons2]
            cases hc : scoresLookup sc cid <;> simp [hc, hkc]
        cases hstm : stmLookup stm k with
        | some m =>
          have hstep : spreadLinks stm act ((k, σ) :: rest) sc q0
              = spreadLinks stm act rest (sc ++ [(k, act * σ * (7/10))])
                  (q0 ++ [(m, act * σ * (7/10))]) := by
            simp only [spreadLinks]
            rw [if_pos hq, hsome, hstm]
          rw [hstep, ih, hkey]
        | none =>
          have hstep : spreadLinks stm act ((k, σ) :: rest) sc q0
              = spreadLinks stm act rest (sc ++ [(k, act * σ * (7/10))]) q0 := by
            simp only [spreadLinks]
            rw [if_pos hq, hsome, hstm]
          rw [hstep, ih, hkey]
    · have hstep : spreadLinks stm act ((k, σ) :: rest) sc q0
          = spreadLinks stm act rest sc q0 := by
        simp only [spreadLinks]
        rw [if_neg hq]
      have hcons : qualifyingSpreads act ((k, σ) :: rest) cid
          = qualifyingSpreads act rest cid := by
        simp only [qualifyingSpreads]
        rw [if_neg (fun h => hq h.2)]
      rw [hstep, ih, hcons]

/-- Queue characterization of the inner link loop: every entry of the
work-queue extension is either pre-existing or a Short-Term-resident
neighbor reached by a link of the current node with an above-floor
spread as its activation — nodes not resident in the short-term dict
are never enqueued. -/
theorem spreadLinks_queue (stm : List (String × MemoryNode)) (act : ℚ)
    (links : List (String × ℚ)) (sc : List (String × ℚ))
    (q0 : List (MemoryNode × ℚ)) :
    ∀ p ∈ (spreadLinks stm act links sc q0).2,
      p ∈ q0 ∨ ∃ pr ∈ links, stmLookup stm pr.1 = some p.1 ∧
        p.2 = act * pr.2 * (7/10) ∧ 1/10 < p.2 := by
  induction links generalizing sc q0 with
  | nil =>
    intro p hp
    exact Or.inl (by simpa [spreadLinks] using hp)
  | cons pr rest ih =>
    obtain ⟨k, σ⟩ := pr
    intro p hp
    by_cases hq : 1/10 < act * σ * (7/10)
    · cases hsome : scoresLookup sc k with
      | some old =>
        have hstep : spreadLinks stm act ((k, σ) :: rest) sc q0
            = spreadLinks stm act rest
                (scoresSet sc k (max old (act * σ * (7/10)))) q0 := by
          simp only [spreadLinks]
          rw [if_pos hq, hsome]
        rw [hstep] at hp
        rcases ih _ _ p hp with h | ⟨pr0, hpr0, hrest⟩
        · exact Or.inl h
        · exact Or.inr ⟨pr0, List.mem_cons_of_mem _ hpr0, hrest⟩
      | none =>
        cases hstm : stmLookup stm k with
        | some m =>
          have hstep : spreadLinks stm act ((k, σ) :: rest) sc q0
              = spreadLinks stm act rest (sc ++ [(k, act * σ * (7/10))])
                  (q0 ++ [(m, act * σ * (7/10))]) := by
            simp only [spreadLinks]
            rw [if_pos hq, hsome, hstm]
          rw [hstep] at hp
          rcases ih _ _ p hp with h | ⟨pr0, hpr0, hrest⟩
          · rcases List.mem_append.mp h with h0 | hnew
            · exact Or.inl h0
            · rw [List.mem_singleton.mp hnew]
              exact Or.inr ⟨(k, σ), List.mem_cons_self _ _, hstm, rfl, hq⟩
          · exact Or.inr ⟨pr0, List.mem_cons_of_mem _ hpr0, hrest⟩
        | none =>
          have hstep : spreadLinks stm act ((k, σ) :: rest) sc q0
              = spreadLinks stm act rest (sc ++ [(k, act * σ * (7/10))]) q0 := by
            simp only [spreadLinks]
            rw [if_pos hq, hsome, hstm]
          rw [hstep] at hp
          rcases ih _ _ p hp with h | ⟨pr0, hpr0, hrest⟩
          · exact Or.inl h
          · exact Or.inr ⟨pr0, List.mem_cons_of_mem _ hpr0, hrest⟩
    · have hstep : spreadLinks stm act ((k, σ) :: rest) sc q0
          = spreadLinks stm act rest sc q0 := by
        simp only [spreadLinks]
        rw [if_neg hq]
      rw [hstep] at hp
      rcases ih _ _ p hp with h | ⟨pr0, hpr0, hrest⟩
      · exact Or.inl h
      · exact Or.inr ⟨pr0, List.mem_cons_of_mem _ hpr0, hrest⟩

/-- The single seed of spec Scenario 5: activation 0.9 and one link of
strength 0.8 to `mem_b`. -/
def c2seed : MemoryNode :=
  { id := "mem_a", content := [], embedding := none, timestamp := 0,
    access_count := 0, last_accessed := 0, importance_score := 1/2,
    decay_rate := 1/10, connections := [("mem_b", 4/5)], metadata := [] }

/-- The linked neighbor of Scenario 5, resident in Short-Term. -/
def c2nb : MemoryNode :=
  { id := "mem_b", content := [], embedding := none, timestamp := 0,
    access_count := 0, last_accessed := 0, importance_score := 1/2,
    decay_rate := 1/10, connections := [], metadata := [] }

/-- Scenario 5 computed end to end: the seed with activation `0.9` and
one link of strength `0.8` propagates exactly `0.9*0.8*0.7 = 0.504 =
63/125`, above the `0.1` floor, and the neighbor is recorded with that
activation. -/
theorem c2_scenario :
    spreading_activation [(c2seed, 9/10)] [("mem_b", c2nb)]
      = [(c2seed, 9/10), (c2nb, 63/125)] := by
  have hq : (1 : ℚ)/10 < (9/10) * (4/5) * (7/10) := by norm_num
  have hval : (9/10 : ℚ) * (4/5) * (7/10) = 63/125 := by norm_num
  have hlt : ¬ ((9:ℚ)/10 < 63/125) := by norm_num
  simp only [spreading_activation, List.foldl_cons, List.foldl_nil,
    List.length_cons, List.length_nil, List.map_cons, List.map_nil]
  have hs1 : decide (("mem_b" : String) = "mem_a") = false := by decide
  norm_num [scoresAssign, scoresLookup, scoresSet, List.find?, c2seed, c2nb,
    spreadLoop, spreadLinks, stmLookup, resolveNode, sortDescBy, insertDescBy,
    List.filterMap, hq, hval, hlt, hs1, List.reverse, List.foldl_cons,
    List.foldl_nil]

/-- C2: behaviour of `_spreading_activation`'s queue loop.  (1) A
popped node already visited is skipped; a popped unvisited node is
marked visited and its links are processed, the resulting enqueues
appended to the work queue.  (2) Processing the links updates each
neighbor's activation score to the maximum of its existing score and
every propagated value `spread = activation * strength * 0.7` that
clears the `0.1` floor (values below the floor are dropped).  (3) Every
newly enqueued entry is a Short-Term-resident neighbor carrying such an
above-floor spread — nodes not resident in Short-Term (DurableStore-
only nodes) are never enqueued and so act as leaves.  (4) Scenario 5:
a single seed with activation 0.9 and one link of strength 0.8 records
the neighbor at exactly `0.9*0.8*0.7 = 0.504`. -/
theorem claimC2_spreading_activation :
    (∀ (stm : List (String × MemoryNode)) (fuel : ℕ) (cur : MemoryNode)
        (act : ℚ) (rest : List (MemoryNode × ℚ)) (sc : List (String × ℚ))
        (visited : List String),
      (cur.id ∈ visited →
        spreadLoop stm (fuel + 1) ((cur, act) :: rest) sc visited
          = spreadLoop stm fuel rest sc visited) ∧
      (cur.id ∉ visited →
        spreadLoop stm (fuel + 1) ((cur, act) :: rest) sc visited
          = spreadLoop stm fuel
              (rest ++ (spreadLinks stm act cur.connections sc []).2)
              (spreadLinks stm act cur.connections sc []).1
              (cur.id :: visited))) ∧
    (∀ (stm : List (String × MemoryNode)) (act : ℚ) (links : List (String × ℚ))
        (sc : List (String × ℚ)) (q0 : List (MemoryNode × ℚ)) (cid : String),
      scoresLookup (spreadLinks stm act links sc q0).1 cid =
        match scoresLookup sc cid with
        | some old => some ((qualifyingSpreads act links cid).foldl max old)
        | none =>
          match qualifyingSpreads act links cid with
          | [] => none
          | v :: vs => some (vs.foldl max v)) ∧
    (∀ (stm : List (String × MemoryNode)) (act : ℚ) (links : List (String × ℚ))
        (sc : List (String × ℚ)) (q0 : List (MemoryNode × ℚ)),
      ∀ p ∈ (spreadLinks stm act links sc q0).2,
        p ∈ q0 ∨ ∃ pr ∈ links, stmLookup stm pr.1 = some p.1 ∧
          p.2 = act * pr.2 * (7/10) ∧ 1/10 < p.2) ∧
    spreading_activation [(c2seed, 9/10)] [("mem_b", c2nb)]
      = [(c2seed, 9/10), (c2nb, 63/125)] := by
  refine ⟨?_, spreadLinks_lookup, spreadLinks_queue, c2_scenario⟩
  intro stm fuel cur act rest sc visited
  constructor
  · intro h
    simp only [spreadLoop]
    rw [if_pos h]
  · intro h
    simp only [spreadLoop]
    rw [if_neg h]

/-- Witness for C2: the skip rule applied at a concrete queue state
whose head has already been visited. -/
theorem claimC2_witness :
    spreadLoop [] 1 [(c2seed, 9/10)] [] ["mem_a"]
      = spreadLoop [] 0 [] [] ["mem_a"] :=
  (claimC2_spreading_activation.1 [] 0 c2seed (9/10) [] [] ["mem_a"]).1
    (by simp [c2seed])

/-- Reading the adjacency index through a cons cell. -/
theorem graphLookup_cons (p : String × List (String × ℚ))
    (g : List (String × List (String × ℚ))) (k : String) :
    graphLookup (p :: g) k = if p.1 = k then p.2 else graphLookup g k := by
  by_cases h : p.1 = k <;> simp [graphLookup, List.find?, h]

/-- `graphAppend` extends exactly the entry of its key. -/
theorem graphLookup_graphAppend (g : List (String × List (String × ℚ)))
    (k : String) (v : String × ℚ) (k' : String) :
    graphLookup (graphAppend g k v) k' =
      if k' = k then graphLookup g k' ++ [v] else graphLookup g k' := by
  induction g with
  | nil =>
    by_cases h : k' = k
    · subst h
      simp [graphAppend, graphLookup_cons, graphLookup]
    · have h2 : ¬k = k' := fun hh => h hh.symm
      simp [graphAppend, graphLookup_cons, graphLookup, h, h2]
  | cons hd tl ih =>
    obtain ⟨k0, l0⟩ := hd
    by_cases hk0 : k0 = k
    · subst hk0
      by_cases h : k' = k0
      · subst h
        simp [graphAppend, graphLookup_cons]
      · have h2 : ¬k0 = k' := fun hh => h hh.symm
        simp [graphAppend, graphLookup_cons, h, h2]
    · by_cases h : k0 = k'
      · subst h
        have h2 : ¬k0 = k := hk0
        simp [graphAppend, graphLookup_cons, hk0, fun hh : k0 = k => hk0 hh]
      · simp [graphAppend, graphLookup_cons, hk0, h, ih]

/-- Membership in the adjacency index after one bidirectional link
insertion (for distinct endpoints, as produced by the scan). -/
theorem mem_graphLookup_addLinkPair (g : List (String × List (String × ℚ)))
    (n m : String) (σ : ℚ) (k : String) (p : String × ℚ) (hnm : n ≠ m) :
    p ∈ graphLookup (addLinkPair g n m σ) k ↔
      p ∈ graphLookup g k ∨ (k = n ∧ p = (m, σ)) ∨ (k = m ∧ p = (n, σ)) := by
  unfold addLinkPair
  rw [graphLookup_graphAppend, graphLookup_graphAppend]
  by_cases h1 : k = n
  · subst h1
    rw [if_neg hnm, if_pos rfl]
    simp [hnm]
  · by_cases h2 : k = m
    · subst h2
      rw [if_pos rfl, if_neg h1]
      simp [h1]
    · rw [if_neg h2, if_neg h1]
      simp [h1, h2]

/-- Membership in the adjacency index is preserved by any later
append. -/
theorem mem_graphLookup_append_mono (g : List (String × List (String × ℚ)))
    (a : String) (v : String × ℚ) (k : String) (p : String × ℚ)
    (h : p ∈ graphLookup g k) : p ∈ graphLookup (graphAppend g a v) k := by
  rw [graphLookup_graphAppend]
  by_cases hk : k = a
  · rw [if_pos hk]
    exact List.mem_append_left _ h
  · rw [if_neg hk]
    exact h

/-- Membership is preserved by folding further link insertions. -/
theorem mem_graphLookup_fold_mono (nid : String) (ms : List (String × ℚ))
    (g : List (String × List (String × ℚ))) (k : String) (p : String × ℚ)
    (h : p ∈ graphLookup g k) :
    p ∈ graphLookup (ms.foldl (fun g q => addLinkPair g nid q.1 q.2) g) k := by
  induction ms generalizing g with
  | nil => exact h
  | cons q qs ih =>
    simp only [List.foldl_cons]
    exact ih _ (mem_graphLookup_append_mono _ _ _ _ _
      (mem_graphLookup_append_mono _ _ _ _ _ h))

/-- Every match folded into the adjacency index leaves both of its
directed entries readable. -/
theorem fold_addLinkPair_mem (nid : String) (ms : List (String × ℚ))
    (g : List (String × List (String × ℚ)))
    (hne : ∀ q ∈ ms, q.1 ≠ nid) (p : String × ℚ) (hp : p ∈ ms) :
    p ∈ graphLookup (ms.foldl (fun g q => addLinkPair g nid q.1 q.2) g) nid ∧
    (nid, p.2) ∈
      graphLookup (ms.foldl (fun g q => addLinkPair g nid q.1 q.2) g) p.1 := by
  induction ms generalizing g with
  | nil => exact absurd hp (List.not_mem_nil p)
  | cons q qs ih =>
    simp only [List.foldl_cons]
    rcases List.mem_cons.mp hp with rfl | hp'
    · have hq : nid ≠ p.1 := fun h => (hne p (List.mem_cons_self p qs)) h.symm
      constructor
      · exact mem_graphLookup_fold_mono _ _ _ _ _
          ((mem_graphLookup_addLinkPair _ _ _ _ _ _ hq).mpr
            (Or.inr (Or.inl ⟨rfl, rfl⟩)))
      · exact mem_graphLookup_fold_mono _ _ _ _ _
          ((mem_graphLookup_addLinkPair _ _ _ _ _ _ hq).mpr
            (Or.inr (Or.inr ⟨rfl, rfl⟩)))
    · exact ih _ (fun r hr => hne r (List.mem_cons_of_mem q hr)) hp' 

/-- Symmetry of the adjacency index: every directed entry has its
mirror entry. -/
def GraphSym (g : List (String × List (String × ℚ))) : Prop :=
  ∀ (a b : String) (σ : ℚ),
    (b, σ) ∈ graphLookup g a ↔ (a, σ) ∈ graphLookup g b

/-- One bidirectional insertion preserves symmetry. -/
theorem graphSym_addLinkPair (g : List (String × List (String × ℚ)))
    (n m : String) (σ : ℚ) (hnm : n ≠ m) (h : GraphSym g) :
    GraphSym (addLinkPair g n m σ) := by
  intro a b τ
  rw [mem_graphLookup_addLinkPair _ _ _ _ _ _ hnm,
    mem_graphLookup_addLinkPair _ _ _ _ _ _ hnm]
  simp only [Prod.mk.injEq]
  constructor
  · rintro (hb | ⟨rfl, rfl, rfl⟩ | ⟨rfl, rfl, rfl⟩)
    · exact Or.inl ((h a b τ).mp hb)
    · exact Or.inr (Or.inr ⟨rfl, rfl, rfl⟩)
    · exact Or.inr (Or.inl ⟨rfl, rfl, rfl⟩)
  · rintro (hb | ⟨rfl, rfl, rfl⟩ | ⟨rfl, rfl, rfl⟩)
    · exact Or.inl ((h a b τ).mpr hb)
    · exact Or.inr (Or.inr ⟨rfl, rfl, rfl⟩)
    · exact Or.inr (Or.inl ⟨rfl, rfl, rfl⟩)

/-- Folding the per-match insertions preserves symmetry. -/
theorem graphSym_fold (nid : String) (ms : List (String × ℚ))
    (g : List (String × List (String × ℚ)))
    (hms : ∀ q ∈ ms, q.1 ≠ nid) (h : GraphSym g) :
    GraphSym (ms.foldl (fun g q => addLinkPair g nid q.1 q.2) g) := by
  induction ms generalizing g with
  | nil => exact h
  | cons q qs ih =>
    simp only [List.foldl_cons]
    exact ih _ (fun r hr => hms r (List.mem_cons_of_mem q hr))
      (graphSym_addLinkPair _ _ _ _
        (fun hh => (hms q (List.mem_cons_self q qs)) hh.symm) h)

/-- The ids matched by the scan never equal the new node's id. -/
theorem connMatches_ne (nid : String) (ne : List ℚ) (mems : List MemoryNode) :
    ∀ p ∈ connMatches nid ne mems, p.1 ≠ nid := by
  intro p hp
  obtain ⟨m, hm, heq⟩ := List.mem_filterMap.mp hp
  by_cases h1 : m.id = nid
  · simp [connMatches, h1] at heq
  · cases he : m.embedding with
    | none => simp [h1, he] at heq
    | some e =>
      by_cases h2 : 7/10 < cosineSimQ ne e
      · simp [h1, he, h2] at heq
        rw [← heq]
        exact h1
      · simp [h1, he, h2] at heq

/-- The adjacency index of every reachable state is symmetric. -/
theorem reachable_graphSym (s : CognitiveMemorySystem) (h : Reachable s) :
    GraphSym s.memory_graph := by
  induction h with
  | init t0 =>
    intro a b σ
    simp [initSys, graphLookup]
  | store s mid c imp emb now _ ih =>
    cases emb with
    | none =>
      rw [store_none_spec]
      exact ih
    | some ne =>
      rw [store_some_spec]
      exact graphSym_fold _ _ _ (connMatches_ne _ _ _) ih
  | retrieve s q k ltmRes now _ ih =>
    cases ltmRes with
    | error e => exact ih
    | ok recs => exact ih
  | consolidate s now _ ih => exact ih

/-- A scanned resident (with an embedding, and distinct from the new
node) contributes its match pair exactly when the similarity clears the
0.7 threshold. -/
theorem connMatches_mem_iff (nid : String) (ne : List ℚ)
    (mems : List MemoryNode) (m : MemoryNode) (e : List ℚ)
    (hm : m ∈ mems) (hmid : m.id ≠ nid) (he : m.embedding = some e) :
    (m.id, cosineSimQ ne e) ∈ connMatches nid ne mems ↔
      7/10 < cosineSimQ ne e := by
  constructor
  · intro hmem
    obtain ⟨m', hm', heq⟩ := List.mem_filterMap.mp hmem
    by_cases h1 : m'.id = nid
    · simp [connMatches, h1] at heq
    · cases he' : m'.embedding with
      | none => simp [h1, he'] at heq
      | some e' =>
        by_cases h2 : 7/10 < cosineSimQ ne e'
        · simp [h1, he', h2] at heq
          rw [← heq.2]
          exact h2
        · simp [h1, he', h2] at heq
  · intro hσ
    refine List.mem_filterMap.mpr ⟨m, hm, ?_⟩
    simp [hmid, he, hσ]

/-- A resident free of prior links to the new node holds the mirrored
entry after the scan exactly when the similarity clears the
threshold. -/
theorem mirrorConn_mem_iff (nid : String) (ne : List ℚ) (m : MemoryNode)
    (e : List ℚ) (hmid : m.id ≠ nid) (he : m.embedding = some e)
    (hno : ∀ σ : ℚ, (nid, σ) ∉ m.connections) :
    (nid, cosineSimQ ne e) ∈ (mirrorConn nid ne m).connections ↔
      7/10 < cosineSimQ ne e := by
  by_cases hσ : 7/10 < cosineSimQ ne e
  · have hmir : mirrorConn nid ne m
        = { m with connections := m.connections ++ [(nid, cosineSimQ ne e)] } := by
      simp [mirrorConn, hmid, he, hσ]
    rw [hmir]
    simp [hσ]
  · have hmir : mirrorConn nid ne m = m := by
      simp [mirrorConn, hmid, he, hσ]
    rw [hmir]
    exact ⟨fun hmem => absurd hmem (hno _), fun h => absurd h hσ⟩

/-- C7: association-link maintenance.  When a node with embedding is
stored into a system whose residents carry fresh ids (no resident has
the new id and none holds a link to it):
(1) the returned new node's `connections` contain `(m.id, sim)` for an
old resident `m` exactly when `sim = cosine(ne, m.embedding) > 0.7`;
(2) the resident's own updated `connections` (its `mirrorConn` image,
which by `store_some_spec` is exactly its post-store state) contain the
mirrored `(newId, sim)` entry under the same condition, with equal
strength;
(3) when the threshold is cleared both directed entries are readable
from the global adjacency index under the two ids;
(4) in every reachable state the adjacency index is symmetric: a link
`(a,b,σ)` is present exactly when `(b,a,σ)` is. -/
theorem claimC7_association_links (s : CognitiveMemorySystem) (mid : String)
    (c : List (String × String)) (imp : ℚ) (ne : List ℚ) (now : ℤ)
    (hfresh : ∀ m ∈ dequeKeep 20 s.working_memory ++ stmValues s,
      m.id ≠ "mem_" ++ mid)
    (hnolink : ∀ m ∈ dequeKeep 20 s.working_memory ++ stmValues s,
      ∀ σ : ℚ, ("mem_" ++ mid, σ) ∉ m.connections) :
    (∀ m ∈ dequeKeep 20 s.working_memory ++ stmValues s,
      ∀ e : List ℚ, m.embedding = some e →
      ((m.id, cosineSimQ ne e) ∈
          (store_interaction s mid c imp (some ne) now).1.connections ↔
        7/10 < cosineSimQ ne e)) ∧
    (∀ m ∈ dequeKeep 20 s.working_memory ++ stmValues s,
      ∀ e : List ℚ, m.embedding = some e →
      (("mem_" ++ mid, cosineSimQ ne e) ∈
          (mirrorConn ("mem_" ++ mid) ne m).connections ↔
        7/10 < cosineSimQ ne e)) ∧
    (∀ m ∈ dequeKeep 20 s.working_memory ++ stmValues s,
      ∀ e : List ℚ, m.embedding = some e → 7/10 < cosineSimQ ne e →
      (m.id, cosineSimQ ne e) ∈ graphLookup
        (store_interaction s mid c imp (some ne) now).2.memory_graph
        ("mem_" ++ mid) ∧
      ("mem_" ++ mid, cosineSimQ ne e) ∈ graphLookup
        (store_interaction s mid c imp (some ne) now).2.memory_graph m.id) ∧
    (∀ s' : CognitiveMemorySystem, Reachable s' → ∀ (a b : String) (σ : ℚ),
      ((b, σ) ∈ graphLookup s'.memory_graph a ↔
        (a, σ) ∈ graphLookup s'.memory_graph b)) := by
  have hscan : ∀ m ∈ dequeKeep 20 s.working_memory ++ stmValues s,
      m ∈ dequeKeep 20 s.working_memory ++
        [mkStoredNode mid c imp (some ne) now] ++ stmValues s := by
    intro m hm
    rcases List.mem_append.mp hm with hf | hs
    · exact List.mem_append_left _ (List.mem_append_left _ hf)
    · exact List.mem_append_right _ hs
  refine ⟨?_, ?_, ?_, reachable_graphSym⟩
  · intro m hm e he
    rw [store_some_fst]
    exact connMatches_mem_iff _ _ _ _ _ (hscan m hm) (hfresh m hm) he
  · intro m hm e he
    exact mirrorConn_mem_iff _ _ _ _ (hfresh m hm) he (hnolink m hm)
  · intro m hm e he hσ
    have hmem : (m.id, cosineSimQ ne e) ∈ connMatches ("mem_" ++ mid) ne
        (dequeKeep 20 s.working_memory ++
          [mkStoredNode mid c imp (some ne) now] ++ stmValues s) :=
      (connMatches_mem_iff _ _ _ _ _ (hscan m hm) (hfresh m hm) he).mpr hσ
    have := fold_addLinkPair_mem ("mem_" ++ mid) _ s.memory_graph
      (connMatches_ne _ _ _) _ hmem
    rw [store_some_spec]
    exact this

/-- Witness for C7 enacting spec Scenario 2: after storing unit vectors
`[1,0]` and `[4/5,3/5]` (cosine similarity 0.8 > 0.7) consecutively,
the second store's returned node links back to the first with strength
exactly the similarity; a third node with similarity ≤ 0.7 to the first
(here `[0,1]`, similarity 0) gains no link to it. -/
theorem claimC7_witness :
    (("mem_a", cosineSimQ [4/5, 3/5] [1, 0]) ∈
      (store_interaction (store_interaction (initSys 0) "a" [] 1
          (some [1, 0]) 0).2
        "b" [] 1 (some [4/5, 3/5]) 0).1.connections) ∧
    (("mem_a", cosineSimQ [0, 1] [1, 0]) ∉
      (store_interaction (store_interaction (initSys 0) "a" [] 1
          (some [1, 0]) 0).2
        "d" [] 1 (some [0, 1]) 0).1.connections) := by
  set sa := store_interaction (initSys 0) "a" [] 1 (some [1, 0]) 0 with hsa
  have hwa : sa.2.working_memory = [sa.1] := by
    rw [hsa, store_some_spec, store_some_fst]
    simp [initSys, dequeKeep]
  have hstm : sa.2.short_term_memory = [] := by
    rw [hsa, store_some_spec]
    simp [initSys]
  have hres : dequeKeep 20 sa.2.working_memory ++ stmValues sa.2 = [sa.1] := by
    rw [hwa]
    simp [dequeKeep, stmValues, hstm]
  have hid : sa.1.id = "mem_a" := by
    rw [hsa]
    rfl
  have hemb : sa.1.embedding = some [1, 0] := by
    rw [hsa]
    rfl
  have hconn : sa.1.connections = [] := by
    rw [hsa, store_some_fst]
    simp [initSys, dequeKeep, stmValues, connMatches, mkStoredNode]
  have hmem : sa.1 ∈ dequeKeep 20 sa.2.working_memory ++ stmValues sa.2 := by
    rw [hres]
    exact List.mem_singleton.mpr rfl
  have hfresh1 : ∀ m ∈ dequeKeep 20 sa.2.working_memory ++ stmValues sa.2,
      m.id ≠ "mem_" ++ "b" := by
    intro m hm
    rw [hres] at hm
    rw [List.mem_singleton.mp hm, hid]
    decide
  have hfresh2 : ∀ m ∈ dequeKeep 20 sa.2.working_memory ++ stmValues sa.2,
      m.id ≠ "mem_" ++ "d" := by
    intro m hm
    rw [hres] at hm
    rw [List.mem_singleton.mp hm, hid]
    decide
  have hnolink1 : ∀ m ∈ dequeKeep 20 sa.2.working_memory ++ stmValues sa.2,
      ∀ σ : ℚ, ("mem_" ++ "b", σ) ∉ m.connections := by
    intro m hm σ
    rw [hres] at hm
    rw [List.mem_singleton.mp hm, hconn]
    simp
  have hnolink2 : ∀ m ∈ dequeKeep 20 sa.2.working_memory ++ stmValues sa.2,
      ∀ σ : ℚ, ("mem_" ++ "d", σ) ∉ m.connections := by
    intro m hm σ
    rw [hres] at hm
    rw [List.mem_singleton.mp hm, hconn]
    simp
  have hsim1 : cosineSimQ [4/5, 3/5] [1, 0] = 4/5 := by
    norm_num [cosineSimQ, dotQ, normSq, ratSqrt_one]
  have hsim2 : cosineSimQ [0, 1] [1, 0] = 0 := by
    norm_num [cosineSimQ, dotQ, normSq, ratSqrt_one]
  constructor
  · have h1 := ((claimC7_association_links sa.2 "b" [] 1 [4/5, 3/5] 0
      hfresh1 hnolink1).1 sa.1 hmem [1, 0] hemb).mpr
    rw [hid] at h1
    exact h1 (by rw [hsim1]; norm_num)
  · intro habs
    have h2 := ((claimC7_association_links sa.2 "d" [] 1 [0, 1] 0
      hfresh2 hnolink2).1 sa.1 hmem [1, 0] hemb).mp
    rw [hid] at h2
    have hσ := h2 habs
    rw [hsim2] at hσ
    norm_num at hσ

/-- Witness for the amended C9: a node carrying the zero vector `[0,0]`
is included in the candidate pairs with the division-computed
similarity. -/
theorem claimC9_amended_witness :
    (mkStoredNode "z" [] 1 (some [0, 0]) 0,
      dotQ [1] [0, 0] / (ratSqrt (normSq [1]) * ratSqrt (normSq [0, 0]))) ∈
      gatherLocal [1] [mkStoredNode "z" [] 1 (some [0, 0]) 0] :=
  ((claimC9_amended_no_zero_guard [1] [mkStoredNode "z" [] 1 (some [0, 0]) 0]
      (mkStoredNode "z" [] 1 (some [0, 0]) 0)).2 [0, 0]
    (List.mem_singleton.mpr rfl) rfl).1
